import Mathlib

/-!
Verification of the package-id-spec layer of cargo
(`src/cargo/util_schemas/core/package_id_spec.rs`).

Strings are modelled as lists of characters (`Str`).  The functions of the
source file (`PackageIdSpec::parse`, `PackageIdSpec::from_url`,
`strip_url_protocol`, the `Display` impl, the builders and setters) are
translated directly.  External collaborators that the source file uses but
that live outside the repository snapshot (the `url` crate, the
partial-version oracle `PartialVersion`, the name validator
`validate_package_name`, `GitReference`, `SourceKind`, `PackageId`) are
modelled from the specification, as noted on each definition.

Rust panics (`unwrap` on `None`, `Url::parse(..).unwrap()`) are modelled by a
dedicated outcome `POut.panic` for the parser and by `Option.none` for the
renderer, so that abnormal termination is observable.
-/

/-- Strings of the program are modelled as lists of characters. -/
abbrev Str := List Char

/-- Coerce a Lean string literal into the model's string type. -/
def str (s : String) : Str := s.toList

/-- Test whether `pat` is an initial run of `s`. -/
def leadsWith : Str → Str → Bool
  | [], _ => true
  | _ :: _, [] => false
  | p :: ps, c :: cs => p == c && leadsWith ps cs

/-- Substring test, modelling Rust's `str::contains(&str)`. -/
def hasSub (pat : Str) : Str → Bool
  | [] => pat.isEmpty
  | c :: cs => leadsWith pat (c :: cs) || hasSub pat cs

/-- Character membership test, modelling Rust's `str::contains(char)`. -/
def hasChar (c : Char) (s : Str) : Bool := s.any (fun x => x == c)

/-- The colon-or-at separator class used by the fragment and plain-token
grammars. -/
def isSep (c : Char) : Bool := c == ':' || c == '@'

/-- Single-character tests used by the URL grammar. -/
def isPlus (c : Char) : Bool := c == '+'

/-- Hash-sign test. -/
def isHash (c : Char) : Bool := c == '#'

/-- Question-mark test. -/
def isQm (c : Char) : Bool := c == '?'

/-- Colon test. -/
def isColon (c : Char) : Bool := c == ':'

/-- Slash test. -/
def isSlash (c : Char) : Bool := c == '/'

/-- Equals-sign test. -/
def isEqc (c : Char) : Bool := c == '='

/-- Split a string at the first character satisfying `p`, dropping that
character; `none` when no character satisfies `p`.  Models Rust's
`str::split_once` (and the two-part behaviour of `splitn(2, ..)`). -/
def splitFirst (p : Char → Bool) : Str → Option (Str × Str)
  | [] => none
  | c :: cs =>
    if p c then some ([], cs)
    else
      match splitFirst p cs with
      | some (l, r) => some (c :: l, r)
      | none => none

/-- Split a string on every occurrence of the character `sep`; the result is
always non-empty.  Models Rust's `str::split(char)`. -/
def splitOnC (sep : Char) : Str → List Str
  | [] => [[]]
  | c :: cs =>
    if c = sep then [] :: splitOnC sep cs
    else
      match splitOnC sep cs with
      | [] => [[c]]
      | t :: ts => (c :: t) :: ts

/-- Interleave the character `sep` between the given parts. -/
def joinC (sep : Char) : List Str → Str
  | [] => []
  | [x] => x
  | x :: y :: ys => x ++ sep :: joinC sep (y :: ys)

/-- ASCII letter test, modelling the alphabetic character class used by the
source (restricted to ASCII). -/
def isAlphaC (c : Char) : Bool :=
  (65 ≤ c.toNat && c.toNat ≤ 90) || (97 ≤ c.toNat && c.toNat ≤ 122)

/-- ASCII decimal digit test. -/
def isDigitC (c : Char) : Bool := 48 ≤ c.toNat && c.toNat ≤ 57

/-- Decimal digit character for a digit value. -/
def digitChr : Nat → Char
  | 0 => '0' | 1 => '1' | 2 => '2' | 3 => '3' | 4 => '4'
  | 5 => '5' | 6 => '6' | 7 => '7' | 8 => '8' | _ => '9'

/-- Numeric value of a decimal digit character. -/
def charVal (c : Char) : Nat := c.toNat - 48

/-- Fuelled decimal rendering of a natural number (most significant digit
first); the fuel bounds the number of divisions by ten. -/
def natToStrAux : Nat → Nat → Str
  | 0, _ => []
  | fuel + 1, n =>
    if n = 0 then [] else natToStrAux fuel (n / 10) ++ [digitChr (n % 10)]

/-- Decimal rendering of a natural number. -/
def natToStr (n : Nat) : Str := if n = 0 then [digitChr 0] else natToStrAux n n

/-- Value of a decimal digit string (most significant digit first). -/
def strVal (s : Str) : Nat := s.foldl (fun a c => 10 * a + charVal c) 0

/-- Parse a non-empty all-digit string as a natural number. -/
def parseNat (s : Str) : Option Nat :=
  if !s.isEmpty && s.all isDigitC then some (strVal s) else none

/-- Modelled from the spec: the external partial-version oracle
(`PartialVersion` of `util_semver`, not part of the snapshot) holds a
version specified to major, major.minor, or major.minor.patch precision. -/
inductive PartialVersion where
  | one : Nat → PartialVersion
  | two : Nat → Nat → PartialVersion
  | three : Nat → Nat → Nat → PartialVersion
deriving DecidableEq

/-- Modelled from the spec: parsing a version-like substring splits it on
dots into one, two or three non-empty decimal components; anything else is
rejected by the oracle. -/
def PartialVersion.parse (s : Str) : Option PartialVersion :=
  match (splitOnC '.' s).map parseNat with
  | [some a] => some (.one a)
  | [some a, some b] => some (.two a b)
  | [some a, some b, some c] => some (.three a b c)
  | _ => none

/-- Modelled from the spec: canonical dotted rendering of a partial version,
as used by the canonical renderer when it appends a version. -/
def PartialVersion.toStr : PartialVersion → Str
  | .one a => natToStr a
  | .two a b => natToStr a ++ '.' :: natToStr b
  | .three a b c => natToStr a ++ '.' :: (natToStr b ++ '.' :: natToStr c)

/-- Modelled from the spec: the reference selector embedded in the
version-control source kind (`GitReference`, not part of the snapshot):
branch, tag, revision, or the default branch. -/
inductive GitReference where
  | defaultBranch : GitReference
  | branch : Str → GitReference
  | tag : Str → GitReference
  | rev : Str → GitReference
deriving DecidableEq

/-- Modelled from the spec: the query-pair view of an optional query string,
as produced by the URL library — pieces split on ampersands, empty pieces
skipped, each piece split at its first equals sign (a piece without one
yields an empty value). -/
def queryPairs (q : Option Str) : List (Str × Str) :=
  match q with
  | none => []
  | some qs =>
    ((splitOnC '&' qs).filter (fun piece => !piece.isEmpty)).map
      (fun piece =>
        match splitFirst isEqc piece with
        | some (k, v) => (k, v)
        | none => (piece, []))

/-- Modelled from the spec: `GitReference::from_query` folds over the query
pairs, the keys branch, tag and rev each overwriting the reference, unknown
keys ignored, starting from the default branch. -/
def GitReference.fromQuery (pairs : List (Str × Str)) : GitReference :=
  pairs.foldl
    (fun acc kv =>
      if kv.fst = str "branch" then .branch kv.snd
      else if kv.fst = str "tag" then .tag kv.snd
      else if kv.fst = str "rev" then .rev kv.snd
      else acc)
    .defaultBranch

/-- Modelled from the spec: `GitReference::pretty_ref` — the canonical query
encoding of a non-default reference, nothing for the default branch. -/
def GitReference.prettyRef : GitReference → Option Str
  | .defaultBranch => none
  | .branch b => some (str "branch=" ++ b)
  | .tag t => some (str "tag=" ++ t)
  | .rev r => some (str "rev=" ++ r)

/-- Modelled from the spec: the source-kind tag — plain registry, sparse
registry, version control with its embedded reference, or local path. -/
inductive SourceKind where
  | git : GitReference → SourceKind
  | registry : SourceKind
  | sparseRegistry : SourceKind
  | path : SourceKind
deriving DecidableEq

/-- Modelled from the spec: `SourceKind::protocol`, the prefix token the
canonical renderer emits for a kind; the sparse kind yields none because its
marker is already embedded in the stored URL. -/
def SourceKind.protocol : SourceKind → Option Str
  | .git _ => some (str "git")
  | .registry => some (str "registry")
  | .sparseRegistry => none
  | .path => some (str "path")

/-- Modelled from the spec: the external URL library's parsed URL, restricted
to the hierarchical shape the spec's input grammar uses:
`scheme://authority/path?query#fragment`.  The path is a list of segments,
absent for a non-special scheme written without any path. -/
structure Url where
  scheme : Str
  auth : Str
  segs : Option (List Str)
  query : Option Str
  frag : Option Str
deriving DecidableEq

/-- Modelled from the spec: the URL library's special schemes, whose empty
path is normalised to a single empty segment. -/
def isSpecial (sch : Str) : Bool :=
  sch == str "http" || sch == str "https" || sch == str "ws" ||
  sch == str "wss" || sch == str "ftp" || sch == str "file"

/-- Characters allowed after the first character of a URL scheme. -/
def validSchemeChar (c : Char) : Bool :=
  isAlphaC c || isDigitC c || c == '+' || c == '-' || c == '.'

/-- Modelled from the spec: a URL scheme is non-empty, starts with a letter
and continues with letters, digits, plus, minus or dot. -/
def validScheme : Str → Bool
  | [] => false
  | c :: rest => isAlphaC c && rest.all validSchemeChar

/-- Split a string at the last occurrence of `sep`. -/
def splitLast (sep : Char) (s : Str) : Option (Str × Str) :=
  match splitFirst (fun c => c == sep) s.reverse with
  | some (r, l) => some (l.reverse, r.reverse)
  | none => none

/-- Characters that may appear in a URL authority. -/
def authCharOk (c : Char) : Bool := !(c == '/' || c == '?' || c == '#')

/-- The host-and-port part of an authority: what follows the last at-sign. -/
def hostPort (a : Str) : Str :=
  match splitLast '@' a with
  | some (_, h) => h
  | none => a

/-- Modelled from the spec: validity of a URL authority — no path, query or
fragment delimiters; a port, if present after the last colon of the
host-port part, is all digits; a special scheme other than file requires a
non-empty host.  Userinfo before the last at-sign is opaque. -/
def validAuth (special isFile : Bool) (a : Str) : Bool :=
  a.all authCharOk &&
  (match splitLast ':' (hostPort a) with
   | some (host, port) => port.all isDigitC && (!special || isFile || !host.isEmpty)
   | none => !special || isFile || !(hostPort a).isEmpty)

/-- Split off an optional fragment: everything after the first hash sign. -/
def fragSplit (s : Str) : Str × Option Str :=
  match splitFirst isHash s with
  | some (a, b) => (a, some b)
  | none => (s, none)

/-- Split off an optional query: everything after the first question mark of
the fragment-free part. -/
def querySplit (s : Str) : Str × Option Str :=
  match splitFirst isQm s with
  | some (a, b) => (a, some b)
  | none => (s, none)

/-- The authority-and-path phase of the URL parser: the authority ends at the
first slash; a missing path yields one empty segment for a special scheme
and no segments otherwise. -/
def parseAuthPath (sch : Str) (rest2 : Str) (query frag : Option Str) : Option Url :=
  match splitFirst isSlash rest2 with
  | some (auth, p) =>
    if validAuth (isSpecial sch) (sch == str "file") auth then
      some ⟨sch, auth, some (splitOnC '/' p), query, frag⟩
    else none
  | none =>
    if validAuth (isSpecial sch) (sch == str "file") rest2 then
      some ⟨sch, rest2, if isSpecial sch then some [[]] else none, query, frag⟩
    else none

/-- The scheme phase of the URL parser: the scheme ends at the first colon of
the core and must be valid and followed by two slashes. -/
def parseCore (core : Str) (query frag : Option Str) : Option Url :=
  match splitFirst isColon core with
  | none => none
  | some (sch, rest) =>
    if validScheme sch then
      match rest with
      | '/' :: '/' :: rest2 => parseAuthPath sch rest2 query frag
      | _ => none
    else none

/-- Modelled from the spec: the URL library's parser for the hierarchical
grammar `scheme://authority/path?query#fragment`.  The fragment starts at
the first hash sign, the query at the first question mark before it; the
rest is parsed by `parseCore`. -/
def Url.parse (s : Str) : Option Url :=
  parseCore (querySplit (fragSplit s).1).1 (querySplit (fragSplit s).1).2 (fragSplit s).2

/-- The path part of a rendered URL: a slash-joined segment list, or nothing
when there are no segments. -/
def pathStr : Option (List Str) → Str
  | some l => '/' :: joinC '/' l
  | none => []

/-- An optional URL part introduced by a marker character. -/
def optPart (mark : Char) : Option Str → Str
  | some q => mark :: q
  | none => []

/-- Modelled from the spec: the URL library's string rendering, reassembling
scheme, authority, path, query and fragment. -/
def Url.toString (u : Url) : Str :=
  u.scheme ++ ':' :: '/' :: '/' ::
    (u.auth ++ pathStr u.segs ++ optPart '?' u.query ++ optPart '#' u.frag)

/-- Validity of a path segment: no path, query or fragment delimiters. -/
def segOk (seg : Str) : Bool := seg.all (fun c => !(c == '/' || c == '?' || c == '#'))

/-- Validity of an optional segment list with respect to the scheme's
speciality: absent only for a non-special scheme, otherwise a non-empty
list of delimiter-free segments. -/
def segsOk (special : Bool) : Option (List Str) → Bool
  | none => !special
  | some l => !l.isEmpty && l.all segOk

/-- Validity of an optional query: its text may not contain a hash sign. -/
def queryOkOpt : Option Str → Bool
  | none => true
  | some q => q.all fun c => !(c == '#')

/-- Well-formedness of a URL value: exactly the shape produced by
`Url.parse`, which makes parsing a left inverse of rendering. -/
def Url.valid (u : Url) : Bool :=
  validScheme u.scheme &&
  validAuth (isSpecial u.scheme) (u.scheme == str "file") u.auth &&
  segsOk (isSpecial u.scheme) u.segs &&
  queryOkOpt u.query

/-- The locator type of the source: `PackageIdSpec` with its four fields
(lines 24-30 of `package_id_spec.rs`). -/
structure PackageIdSpec where
  name : Str
  version : Option PartialVersion
  url : Option Url
  kind : Option SourceKind
deriving DecidableEq

/-- `PackageIdSpec::new` (lines 33-40). -/
def PackageIdSpec.new (name : Str) : PackageIdSpec := ⟨name, none, none, none⟩

/-- `PackageIdSpec::with_version` (lines 42-45). -/
def PackageIdSpec.withVersion (s : PackageIdSpec) (v : PartialVersion) : PackageIdSpec :=
  { s with version := some v }

/-- `PackageIdSpec::with_url` (lines 47-50). -/
def PackageIdSpec.withUrl (s : PackageIdSpec) (u : Url) : PackageIdSpec :=
  { s with url := some u }

/-- `PackageIdSpec::with_kind` (lines 52-55). -/
def PackageIdSpec.withKind (s : PackageIdSpec) (k : SourceKind) : PackageIdSpec :=
  { s with kind := some k }

/-- `PackageIdSpec::set_url` (lines 222-224). -/
def PackageIdSpec.setUrl (s : PackageIdSpec) (u : Url) : PackageIdSpec :=
  { s with url := some u }

/-- `PackageIdSpec::set_kind` (lines 230-232). -/
def PackageIdSpec.setKind (s : PackageIdSpec) (k : SourceKind) : PackageIdSpec :=
  { s with kind := some k }

/-- Valid first character of a package name: a letter or underscore, and not
a digit. -/
def nameStartOk (c : Char) : Bool := (isAlphaC c || c == '_') && !(isDigitC c)

/-- Valid continuation character of a package name. -/
def nameContOk (c : Char) : Bool := isAlphaC c || isDigitC c || c == '_' || c == '-'

/-- Modelled from the spec: the external name validator
(`validate_package_name`, not part of the snapshot), restricted to ASCII: a
present first character must be a letter or underscore and not a digit, and
the remaining characters letters, digits, underscore or hyphen.  An empty
name passes, as pinned down by the snapshot's own test
`bad_parsing`, which asserts that parsing the token at-1.2.3 succeeds. -/
def validatePackageName : Str → Bool
  | [] => true
  | c :: rest => nameStartOk c && rest.all nameContOk

/-- The error taxonomy of the parser, one constructor per distinct `bail!` /
`format_err!` site of the source. -/
inductive ParseErr where
  | misdirectedPath : Str → ParseErr
  | versionGrammar : ParseErr
  | invalidName : Str → ParseErr
  | queryString : Str → ParseErr
  | unsupportedPathScheme : Str → ParseErr
  | unsupportedProtocol : Str → ParseErr
  | noPath : Str → ParseErr
  | noPathComponent : Str → ParseErr
deriving DecidableEq

/-- Outcome of a fallible source operation: success, a returned error, or an
abnormal abort (a Rust panic). -/
inductive POut (α : Type) where
  | ok : α → POut α
  | err : ParseErr → POut α
  | panic : POut α
deriving DecidableEq

/-- Apply a function to the success value of an outcome. -/
def POut.mapOk (f : α → α) : POut α → POut α
  | .ok a => .ok (f a)
  | .err e => .err e
  | .panic => .panic

/-- `strip_url_protocol` (lines 235-239): take the string form of the URL,
split once on plus, reparse the remainder; either `unwrap` failing is a
panic, modelled as `none`. -/
def stripUrlProtocol (u : Url) : Option Url :=
  match splitFirst isPlus u.toString with
  | some (_, rhs) => Url.parse rhs
  | none => none

/-- The fragment/path phase of `PackageIdSpec::from_url` (lines 165-202):
remove the fragment, demand a last path segment, and disambiguate the
fragment into name and version. -/
def afterKind (u : Url) (kind : Option SourceKind) : POut PackageIdSpec :=
  let frag := u.frag
  let u2 : Url := { u with frag := none }
  match u2.segs with
  | none => .err (.noPath u2.toString)
  | some segs =>
    match segs.getLast? with
    | none => .err (.noPathComponent u2.toString)
    | some pathName =>
      match frag with
      | none => .ok ⟨pathName, none, some u2, kind⟩
      | some fragment =>
        match splitFirst isSep fragment with
        | some (name, part) =>
          match PartialVersion.parse part with
          | some v => .ok ⟨name, some v, some u2, kind⟩
          | none => .err .versionGrammar
        | none =>
          match fragment.head? with
          | none => .panic
          | some c =>
            if isAlphaC c then .ok ⟨fragment, none, some u2, kind⟩
            else
              match PartialVersion.parse fragment with
              | some v => .ok ⟨pathName, some v, some u2, kind⟩
              | none => .err .versionGrammar

/-- `PackageIdSpec::from_url` (lines 122-203): classify a compound
kind-plus-transport scheme, enforce the per-kind query policy, strip the
kind prefix except for sparse, then run the fragment/path phase. -/
def fromUrl (u : Url) : POut PackageIdSpec :=
  match splitFirst isPlus u.scheme with
  | some (kindStr, scheme2) =>
    if kindStr = str "git" then
      let gref := GitReference.fromQuery (queryPairs u.query)
      let u1 : Url := { u with query := none }
      match stripUrlProtocol u1 with
      | none => .panic
      | some u2 => afterKind u2 (some (.git gref))
    else if kindStr = str "registry" then
      if u.query.isSome then .err (.queryString u.toString)
      else
        match stripUrlProtocol u with
        | none => .panic
        | some u2 => afterKind u2 (some .registry)
    else if kindStr = str "sparse" then
      if u.query.isSome then .err (.queryString u.toString)
      else afterKind u (some .sparseRegistry)
    else if kindStr = str "path" then
      if u.query.isSome then .err (.queryString u.toString)
      else if scheme2 ≠ str "file" then .err (.unsupportedPathScheme scheme2)
      else
        match stripUrlProtocol u with
        | none => .panic
        | some u2 => afterKind u2 (some .path)
    else .err (.unsupportedProtocol kindStr)
  | none =>
    if u.query.isSome then .err (.queryString u.toString)
    else afterKind u none

/-- The plain-token path of `PackageIdSpec::parse` (lines 95-107): split once
on the first colon or at-sign, parse the remainder as a partial version,
then validate the name. -/
def plainParse (spec : Str) : POut PackageIdSpec :=
  let nv : Str × Option Str :=
    match splitFirst isSep spec with
    | some (n, r) => (n, some r)
    | none => (spec, none)
  match nv.2 with
  | some vs =>
    match PartialVersion.parse vs with
    | none => .err .versionGrammar
    | some v =>
      if validatePackageName nv.1 then .ok ⟨nv.1, some v, none, none⟩
      else .err (.invalidName nv.1)
  | none =>
    if validatePackageName nv.1 then .ok ⟨nv.1, none, none, none⟩
    else .err (.invalidName nv.1)

/-- `PackageIdSpec::parse` (lines 77-108).  The filesystem is abstracted as
the predicate `fs`: whether the token, joined to the current directory,
names an existing path (the check of lines 82-93). -/
def parse (fs : Str → Bool) (spec : Str) : POut PackageIdSpec :=
  if hasSub (str "://") spec then
    match Url.parse spec with
    | some u => fromUrl u
    | none => plainParse spec
  else if (hasChar '/' spec || hasChar '\\' spec) && fs spec then
    .err (.misdirectedPath spec)
  else plainParse spec

/-- The `Display` impl (lines 241-270): kind protocol prefix, URL, pretty git
reference, the name when it differs from the last path segment, then the
version.  The `unwrap` calls on the path segments are modelled by `none`
(a panic). -/
def render (s : PackageIdSpec) : Option Str :=
  match s.url with
  | none =>
    some (s.name ++ (match s.version with | some v => '@' :: v.toStr | none => []))
  | some url =>
    let protoPart : Str :=
      match s.kind with
      | some k => (match k.protocol with | some p => p ++ ['+'] | none => [])
      | none => []
    let qPart : Str :=
      match s.kind with
      | some (.git g) => (match g.prettyRef with | some pr => '?' :: pr | none => [])
      | _ => []
    match url.segs with
    | none => none
    | some segs =>
      match segs.getLast? with
      | none => none
      | some lastSeg =>
        let base := protoPart ++ url.toString ++ qPart
        if lastSeg ≠ s.name then
          some (base ++ '#' :: s.name ++
            (match s.version with | some v => '@' :: v.toStr | none => []))
        else
          some (base ++ (match s.version with | some v => '#' :: v.toStr | none => []))

/-- Modelled from the spec: a concrete, fully resolved package identifier
(`PackageId`, not part of the snapshot) — a name, a full three-component
version, and a source given by URL and kind. -/
structure PackageId where
  pkgName : Str
  major : Nat
  minor : Nat
  patch : Nat
  sourceUrl : Url
  sourceKind : SourceKind

/-- `PackageIdSpec::from_package_id` (lines 112-119): the widen operation,
every optional field populated from the concrete identifier. -/
def PackageIdSpec.fromPackageId (p : PackageId) : PackageIdSpec :=
  ⟨p.pkgName, some (.three p.major p.minor p.patch), some p.sourceUrl, some p.sourceKind⟩

/-- Payload of a git reference: the branch, tag or revision text. -/
def grefPayload : GitReference → Option Str
  | .defaultBranch => none
  | .branch b => some b
  | .tag t => some t
  | .rev r => some r

/-- A git reference whose payload is free of query delimiters, as produced by
the query-pair decoder. -/
def grefOk (g : GitReference) : Prop :=
  ∀ p, grefPayload g = some p → ∀ c ∈ p, c ≠ '&' ∧ c ≠ '#'

/-- The fragment text the canonical renderer appends after the URL: the name
when it differs from the last path segment, the version after the proper
separator. -/
def rtFrag (name : Str) (ver : Option PartialVersion) (lastSeg : Str) : Option Str :=
  if name = lastSeg then ver.map PartialVersion.toStr
  else some (name ++ (match ver with | some v => '@' :: v.toStr | none => []))

/-- The query text the canonical renderer appends: the pretty form of a
non-default git reference, nothing otherwise. -/
def rtQuery : Option SourceKind → Option Str
  | some (.git g) => g.prettyRef
  | _ => none

/-- The protocol prefix the canonical renderer emits before the URL. -/
def protoStr : Option SourceKind → Str
  | some k =>
    match k.protocol with
    | some p => p ++ ['+']
    | none => []
  | none => []

/-! ### Lemmas about the string utilities -/

theorem splitFirst_eq_none {p : Char → Bool} {s : Str} (h : ∀ c ∈ s, p c = false) :
    splitFirst p s = none := by
  induction s with
  | nil => rfl
  | cons c cs ih =>
    have hc := h c (List.mem_cons_self c cs)
    have ih2 := ih fun x hx => h x (List.mem_cons_of_mem c hx)
    simp [splitFirst, hc, ih2]

theorem splitFirst_append {p : Char → Bool} {l : Str} {c : Char} {r : Str}
    (hl : ∀ x ∈ l, p x = false) (hc : p c = true) :
    splitFirst p (l ++ c :: r) = some (l, r) := by
  induction l with
  | nil => simp [splitFirst, hc]
  | cons a as ih =>
    have ha := hl a (List.mem_cons_self a as)
    have ih2 := ih fun x hx => hl x (List.mem_cons_of_mem a hx)
    simp [splitFirst, ha, ih2]

theorem splitFirst_inv {p : Char → Bool} {s l r : Str}
    (h : splitFirst p s = some (l, r)) :
    (∀ x ∈ l, p x = false) ∧ ∃ c, p c = true ∧ s = l ++ c :: r := by
  induction s generalizing l r with
  | nil => simp [splitFirst] at h
  | cons a as ih =>
    simp only [splitFirst] at h
    by_cases hp : p a = true
    · rw [if_pos hp] at h
      simp only [Option.some.injEq, Prod.mk.injEq] at h
      obtain ⟨hl, hr⟩ := h
      subst hl
      subst hr
      exact ⟨by simp, a, hp, rfl⟩
    · rw [if_neg hp] at h
      cases hsf : splitFirst p as with
      | none => rw [hsf] at h; simp at h
      | some pr =>
        obtain ⟨l2, r2⟩ := pr
        rw [hsf] at h
        simp only [Option.some.injEq, Prod.mk.injEq] at h
        obtain ⟨hl, hr⟩ := h
        obtain ⟨h1, c, hc, hs⟩ := ih hsf
        subst hl hr
        refine ⟨?_, c, hc, by rw [hs]; rfl⟩
        intro x hx
        rcases List.mem_cons.mp hx with rfl | hm
        · exact eq_false_of_ne_true hp
        · exact h1 x hm

theorem splitOnC_ne_nil (sep : Char) (s : Str) : splitOnC sep s ≠ [] := by
  cases s with
  | nil => simp [splitOnC]
  | cons c cs =>
    simp only [splitOnC]
    by_cases h : c = sep
    · simp [h]
    · rw [if_neg h]
      cases hs : splitOnC sep cs <;> simp

theorem joinC_cons_head (sep : Char) (c : Char) (t : Str) (ts : List Str) :
    joinC sep ((c :: t) :: ts) = c :: joinC sep (t :: ts) := by
  cases ts <;> simp [joinC]

theorem joinC_splitOnC (sep : Char) (s : Str) : joinC sep (splitOnC sep s) = s := by
  induction s with
  | nil => rfl
  | cons c cs ih =>
    simp only [splitOnC]
    by_cases h : c = sep
    · subst h
      rw [if_pos rfl]
      cases hs : splitOnC c cs with
      | nil => exact absurd hs (splitOnC_ne_nil c cs)
      | cons t ts =>
        rw [hs] at ih
        simp [joinC, ih]
    · rw [if_neg h]
      cases hs : splitOnC sep cs with
      | nil => exact absurd hs (splitOnC_ne_nil sep cs)
      | cons t ts =>
        rw [hs] at ih
        rw [joinC_cons_head, ih]

theorem splitOnC_sep_free (sep : Char) (s : Str) :
    ∀ part ∈ splitOnC sep s, ∀ c ∈ part, c ≠ sep := by
  induction s with
  | nil => simp [splitOnC]
  | cons c cs ih =>
    simp only [splitOnC]
    by_cases h : c = sep
    · rw [if_pos h]
      intro part hp
      rcases List.mem_cons.mp hp with rfl | hm
      · simp
      · exact ih part hm
    · rw [if_neg h]
      cases hs : splitOnC sep cs with
      | nil => exact absurd hs (splitOnC_ne_nil sep cs)
      | cons t ts =>
        intro part hp x hx
        rcases List.mem_cons.mp hp with rfl | hm
        · rcases List.mem_cons.mp hx with rfl | hxt
          · exact h
          · exact ih t (hs ▸ List.mem_cons_self t ts) x hxt
        · exact ih part (hs ▸ List.mem_cons_of_mem t hm) x hx

theorem splitOnC_append (sep : Char) (a rest : Str) (ha : ∀ c ∈ a, c ≠ sep) :
    splitOnC sep (a ++ sep :: rest) = a :: splitOnC sep rest := by
  induction a with
  | nil => simp [splitOnC]
  | cons x xs ih =>
    have hx : x ≠ sep := ha x (List.mem_cons_self x xs)
    have ih2 := ih fun c hc => ha c (List.mem_cons_of_mem x hc)
    simp only [List.cons_append, splitOnC, if_neg hx]
    have ih3 : splitOnC sep (xs.append (sep :: rest)) = xs :: splitOnC sep rest := ih2
    rw [ih3]

theorem splitOnC_free (sep : Char) (a : Str) (ha : ∀ c ∈ a, c ≠ sep) :
    splitOnC sep a = [a] := by
  induction a with
  | nil => rfl
  | cons x xs ih =>
    have hx : x ≠ sep := ha x (List.mem_cons_self x xs)
    have ih2 := ih fun c hc => ha c (List.mem_cons_of_mem x hc)
    simp only [splitOnC, if_neg hx]
    rw [ih2]

theorem splitOnC_joinC (sep : Char) (parts : List Str) (hne : parts ≠ [])
    (hfree : ∀ part ∈ parts, ∀ c ∈ part, c ≠ sep) :
    splitOnC sep (joinC sep parts) = parts := by
  induction parts with
  | nil => exact absurd rfl hne
  | cons p ps ih =>
    cases ps with
    | nil =>
      simp only [joinC]
      exact splitOnC_free sep p (hfree p (List.mem_cons_self p []))
    | cons q qs =>
      have h1 : joinC sep (p :: q :: qs) = p ++ sep :: joinC sep (q :: qs) := rfl
      rw [h1, splitOnC_append sep p _ (hfree p (List.mem_cons_self p (q :: qs)))]
      rw [ih (by simp) fun part hp => hfree part (List.mem_cons_of_mem p hp)]

theorem mem_joinC {sep : Char} {parts : List Str} {c : Char}
    (h : c ∈ joinC sep parts) : c = sep ∨ ∃ part ∈ parts, c ∈ part := by
  induction parts with
  | nil => simp [joinC] at h
  | cons p ps ih =>
    cases ps with
    | nil =>
      simp only [joinC] at h
      exact Or.inr ⟨p, List.mem_cons_self p [], h⟩
    | cons q qs =>
      have h1 : joinC sep (p :: q :: qs) = p ++ sep :: joinC sep (q :: qs) := rfl
      rw [h1] at h
      rcases List.mem_append.mp h with hm | hm
      · exact Or.inr ⟨p, List.mem_cons_self p (q :: qs), hm⟩
      · rcases List.mem_cons.mp hm with rfl | hm2
        · exact Or.inl rfl
        · rcases ih hm2 with h2 | ⟨part, hpart, hc⟩
          · exact Or.inl h2
          · exact Or.inr ⟨part, List.mem_cons_of_mem p hpart, hc⟩

theorem leadsWith_refl_append (pat t : Str) : leadsWith pat (pat ++ t) = true := by
  induction pat with
  | nil => rfl
  | cons p ps ih => simp [leadsWith, ih]

theorem leadsWith_inv {pat s : Str} (h : leadsWith pat s = true) : ∃ t, s = pat ++ t := by
  induction pat generalizing s with
  | nil => exact ⟨s, rfl⟩
  | cons p ps ih =>
    cases s with
    | nil => simp [leadsWith] at h
    | cons c cs =>
      simp only [leadsWith, Bool.and_eq_true, beq_iff_eq] at h
      obtain ⟨h1, h2⟩ := h
      obtain ⟨t, ht⟩ := ih h2
      exact ⟨t, by rw [h1, ht]; rfl⟩

theorem hasSub_of_leadsWith {pat s : Str} (h : leadsWith pat s = true) :
    hasSub pat s = true := by
  cases s with
  | nil =>
    cases pat with
    | nil => rfl
    | cons p ps => simp [leadsWith] at h
  | cons c cs => simp [hasSub, h]

theorem hasSub_cons {pat cs : Str} (c : Char) (h : hasSub pat cs = true) :
    hasSub pat (c :: cs) = true := by
  simp [hasSub, h]

theorem hasSub_intro (pat a b : Str) : hasSub pat (a ++ pat ++ b) = true := by
  induction a with
  | nil => exact hasSub_of_leadsWith (leadsWith_refl_append pat b)
  | cons x xs ih => exact hasSub_cons x ih

theorem hasSub_inv {pat s : Str} (h : hasSub pat s = true) :
    ∃ a b, s = a ++ pat ++ b := by
  induction s with
  | nil =>
    simp only [hasSub, List.isEmpty_iff] at h
    exact ⟨[], [], by simp [h]⟩
  | cons c cs ih =>
    simp only [hasSub, Bool.or_eq_true] at h
    rcases h with h | h
    · obtain ⟨t, ht⟩ := leadsWith_inv h
      exact ⟨[], t, by simp [ht]⟩
    · obtain ⟨a, b, hab⟩ := ih h
      exact ⟨c :: a, b, by simp [hab]⟩

theorem hasChar_iff {c : Char} {s : Str} : hasChar c s = true ↔ c ∈ s := by
  simp only [hasChar, List.any_eq_true, beq_iff_eq]
  constructor
  · rintro ⟨x, hx, rfl⟩; exact hx
  · intro h; exact ⟨c, h, rfl⟩

/-! ### Character classes and decimal numbers -/

theorem nameStartOk_cont {c : Char} (h : nameStartOk c = true) : nameContOk c = true := by
  simp only [nameStartOk, Bool.and_eq_true, Bool.or_eq_true, beq_iff_eq] at h
  simp only [nameContOk, Bool.or_eq_true, beq_iff_eq]
  tauto

theorem validName_chars {n : Str} (h : validatePackageName n = true) :
    ∀ c ∈ n, nameContOk c = true := by
  cases n with
  | nil => simp
  | cons a rest =>
    simp only [validatePackageName, Bool.and_eq_true, List.all_eq_true] at h
    intro c hc
    rcases List.mem_cons.mp hc with rfl | hm
    · exact nameStartOk_cont h.1
    · exact h.2 c hm

theorem nameContOk_sep {c : Char} (h : nameContOk c = true) :
    c ≠ ':' ∧ c ≠ '@' ∧ c ≠ '/' ∧ c ≠ '\\' := by
  refine ⟨?_, ?_, ?_, ?_⟩ <;> rintro rfl <;> revert h <;> decide

theorem isDigitC_sep {c : Char} (h : isDigitC c = true) :
    c ≠ ':' ∧ c ≠ '@' ∧ c ≠ '/' ∧ c ≠ '\\' ∧ c ≠ '.' ∧ c ≠ '#' ∧ c ≠ '?' ∧ c ≠ '&' := by
  refine ⟨?_, ?_, ?_, ?_, ?_, ?_, ?_, ?_⟩ <;> rintro rfl <;> revert h <;> decide

theorem isDigitC_not_alpha {c : Char} (h : isDigitC c = true) : isAlphaC c = false := by
  simp only [isDigitC, Bool.and_eq_true, decide_eq_true_eq] at h
  by_contra hne
  have ha : isAlphaC c = true := by
    cases hb : isAlphaC c
    · exact absurd hb hne
    · rfl
  simp only [isAlphaC, Bool.or_eq_true, Bool.and_eq_true, decide_eq_true_eq] at ha
  omega

theorem charVal_digitChr {d : Nat} (h : d < 10) : charVal (digitChr d) = d := by
  interval_cases d <;> decide

theorem isDigitC_digitChr {d : Nat} (h : d < 10) : isDigitC (digitChr d) = true := by
  interval_cases d <;> decide

theorem strVal_snoc (s : Str) (c : Char) :
    strVal (s ++ [c]) = 10 * strVal s + charVal c := by
  simp [strVal, List.foldl_append]

theorem natToStrAux_val : ∀ fuel n, n ≤ fuel → strVal (natToStrAux fuel n) = n := by
  intro fuel
  induction fuel with
  | zero =>
    intro n h
    interval_cases n
    rfl
  | succ f ih =>
    intro n h
    by_cases h0 : n = 0
    · subst h0; rfl
    · have hlt : n / 10 < n := Nat.div_lt_self (Nat.pos_of_ne_zero h0) (by norm_num)
      have hd : n / 10 ≤ f := by omega
      simp only [natToStrAux, if_neg h0]
      rw [strVal_snoc, ih _ hd, charVal_digitChr (Nat.mod_lt n (by norm_num))]
      exact Nat.div_add_mod n 10

theorem natToStrAux_digits : ∀ fuel n, ∀ c ∈ natToStrAux fuel n, isDigitC c = true := by
  intro fuel
  induction fuel with
  | zero => intro n c hc; simp [natToStrAux] at hc
  | succ f ih =>
    intro n c hc
    by_cases h0 : n = 0
    · subst h0; simp [natToStrAux] at hc
    · simp only [natToStrAux, if_neg h0] at hc
      rcases List.mem_append.mp hc with hm | hm
      · exact ih _ c hm
      · rcases List.mem_cons.mp hm with rfl | hm2
        · exact isDigitC_digitChr (Nat.mod_lt n (by norm_num))
        · simp at hm2

theorem natToStr_digits {n : Nat} : ∀ c ∈ natToStr n, isDigitC c = true := by
  intro c hc
  by_cases h0 : n = 0
  · subst h0
    simp only [natToStr, if_pos rfl] at hc
    rcases List.mem_cons.mp hc with rfl | hm
    · decide
    · simp at hm
  · simp only [natToStr, if_neg h0] at hc
    exact natToStrAux_digits n n c hc

theorem natToStr_ne_nil (n : Nat) : natToStr n ≠ [] := by
  by_cases h0 : n = 0
  · subst h0; decide
  · simp only [natToStr, if_neg h0]
    cases n with
    | zero => exact absurd rfl h0
    | succ m =>
      simp only [natToStrAux, if_neg h0]
      exact List.append_ne_nil_of_right_ne_nil _ (by simp)

theorem natToStr_val (n : Nat) : strVal (natToStr n) = n := by
  by_cases h0 : n = 0
  · subst h0; rfl
  · simp only [natToStr, if_neg h0]
    exact natToStrAux_val n n le_rfl

theorem parseNat_natToStr (n : Nat) : parseNat (natToStr n) = some n := by
  have h1 := natToStr_ne_nil n
  have h2 : (natToStr n).all isDigitC = true := List.all_eq_true.mpr natToStr_digits
  have h3 := natToStr_val n
  simp only [parseNat, h2, Bool.and_true]
  rw [if_pos (by simp [List.isEmpty_iff, h1]), h3]

theorem natToStr_dot_free {n : Nat} : ∀ c ∈ natToStr n, c ≠ '.' := by
  intro c hc
  exact (isDigitC_sep (natToStr_digits c hc)).2.2.2.2.1

/-! ### Partial-version round trip -/

theorem pv_parse_toStr (v : PartialVersion) : PartialVersion.parse v.toStr = some v := by
  cases v with
  | one a =>
    have h1 : splitOnC '.' (natToStr a) = [natToStr a] :=
      splitOnC_free _ _ natToStr_dot_free
    simp [PartialVersion.parse, PartialVersion.toStr, h1, parseNat_natToStr]
  | two a b =>
    have h1 : splitOnC '.' (natToStr a ++ '.' :: natToStr b)
        = natToStr a :: splitOnC '.' (natToStr b) :=
      splitOnC_append _ _ _ natToStr_dot_free
    have h2 : splitOnC '.' (natToStr b) = [natToStr b] :=
      splitOnC_free _ _ natToStr_dot_free
    simp [PartialVersion.parse, PartialVersion.toStr, h1, h2, parseNat_natToStr]
  | three a b c =>
    have h1 : splitOnC '.' (natToStr a ++ '.' :: (natToStr b ++ '.' :: natToStr c))
        = natToStr a :: splitOnC '.' (natToStr b ++ '.' :: natToStr c) :=
      splitOnC_append _ _ _ natToStr_dot_free
    have h2 : splitOnC '.' (natToStr b ++ '.' :: natToStr c)
        = natToStr b :: splitOnC '.' (natToStr c) :=
      splitOnC_append _ _ _ natToStr_dot_free
    have h3 : splitOnC '.' (natToStr c) = [natToStr c] :=
      splitOnC_free _ _ natToStr_dot_free
    simp [PartialVersion.parse, PartialVersion.toStr, h1, h2, h3, parseNat_natToStr]

theorem pv_toStr_chars {v : PartialVersion} :
    ∀ c ∈ v.toStr, isDigitC c = true ∨ c = '.' := by
  intro c hc
  cases v with
  | one a => exact Or.inl (natToStr_digits c hc)
  | two a b =>
    simp only [PartialVersion.toStr] at hc
    rcases List.mem_append.mp hc with hm | hm
    · exact Or.inl (natToStr_digits c hm)
    · rcases List.mem_cons.mp hm with rfl | hm2
      · exact Or.inr rfl
      · exact Or.inl (natToStr_digits c hm2)
  | three a b cc =>
    simp only [PartialVersion.toStr] at hc
    rcases List.mem_append.mp hc with hm | hm
    · exact Or.inl (natToStr_digits c hm)
    · rcases List.mem_cons.mp hm with rfl | hm2
      · exact Or.inr rfl
      · rcases List.mem_append.mp hm2 with hm3 | hm3
        · exact Or.inl (natToStr_digits c hm3)
        · rcases List.mem_cons.mp hm3 with rfl | hm4
          · exact Or.inr rfl
          · exact Or.inl (natToStr_digits c hm4)

theorem pv_toStr_sep_free {v : PartialVersion} :
    ∀ c ∈ v.toStr, c ≠ ':' ∧ c ≠ '@' ∧ c ≠ '/' ∧ c ≠ '\\' ∧ c ≠ '#' ∧ c ≠ '?' ∧ c ≠ '&' := by
  intro c hc
  rcases pv_toStr_chars c hc with hd | rfl
  · obtain ⟨h1, h2, h3, h4, _, h6, h7, h8⟩ := isDigitC_sep hd
    exact ⟨h1, h2, h3, h4, h6, h7, h8⟩
  · refine ⟨?_, ?_, ?_, ?_, ?_, ?_, ?_⟩ <;> decide

theorem pv_toStr_head {v : PartialVersion} :
    ∃ c rest, v.toStr = c :: rest ∧ isDigitC c = true := by
  cases v with
  | one a =>
    obtain ⟨c, cs, h⟩ := List.exists_cons_of_ne_nil (natToStr_ne_nil a)
    refine ⟨c, cs, by simp [PartialVersion.toStr, h], ?_⟩
    exact natToStr_digits c (by rw [h]; exact List.mem_cons_self c cs)
  | two a b =>
    obtain ⟨c, cs, h⟩ := List.exists_cons_of_ne_nil (natToStr_ne_nil a)
    refine ⟨c, cs ++ '.' :: natToStr b, by simp [PartialVersion.toStr, h], ?_⟩
    exact natToStr_digits c (by rw [h]; exact List.mem_cons_self c cs)
  | three a b cc =>
    obtain ⟨c, cs, h⟩ := List.exists_cons_of_ne_nil (natToStr_ne_nil a)
    refine ⟨c, cs ++ '.' :: (natToStr b ++ '.' :: natToStr cc),
      by simp [PartialVersion.toStr, h], ?_⟩
    exact natToStr_digits c (by rw [h]; exact List.mem_cons_self c cs)

/-! ### URL grammar lemmas -/

theorem beqc_false {c d : Char} (h : c ≠ d) : (c == d) = false := by
  cases hc : c == d
  · rfl
  · exact absurd (beq_iff_eq.mp hc) h

theorem bnot_beq_ne {c d : Char} (h : (!(c == d)) = true) : c ≠ d := by
  intro he
  subst he
  simp at h

theorem isHash_false {c : Char} (h : c ≠ '#') : isHash c = false := by
  simp only [isHash]; exact beqc_false h

theorem isQm_false {c : Char} (h : c ≠ '?') : isQm c = false := by
  simp only [isQm]; exact beqc_false h

theorem isColon_false {c : Char} (h : c ≠ ':') : isColon c = false := by
  simp only [isColon]; exact beqc_false h

theorem isSlash_false {c : Char} (h : c ≠ '/') : isSlash c = false := by
  simp only [isSlash]; exact beqc_false h

theorem isPlus_false {c : Char} (h : c ≠ '+') : isPlus c = false := by
  simp only [isPlus]; exact beqc_false h

theorem isSep_false {c : Char} (h1 : c ≠ ':') (h2 : c ≠ '@') : isSep c = false := by
  simp only [isSep, beqc_false h1, beqc_false h2]
  rfl

theorem isEqc_false {c : Char} (h : c ≠ '=') : isEqc c = false := by
  simp only [isEqc]; exact beqc_false h

theorem validSchemeChar_sep {c : Char} (h : validSchemeChar c = true) :
    c ≠ ':' ∧ c ≠ '/' ∧ c ≠ '?' ∧ c ≠ '#' ∧ c ≠ '@' := by
  refine ⟨?_, ?_, ?_, ?_, ?_⟩ <;> rintro rfl <;> revert h <;> decide

theorem isAlphaC_schemeChar {c : Char} (h : isAlphaC c = true) : validSchemeChar c = true := by
  simp [validSchemeChar, h]

theorem validScheme_chars {sch : Str} (h : validScheme sch = true) :
    ∀ c ∈ sch, validSchemeChar c = true := by
  cases sch with
  | nil => simp
  | cons a rest =>
    simp only [validScheme, Bool.and_eq_true, List.all_eq_true] at h
    intro c hc
    rcases List.mem_cons.mp hc with rfl | hm
    · exact isAlphaC_schemeChar h.1
    · exact h.2 c hm

theorem authCharOk_sep {c : Char} (h : authCharOk c = true) :
    c ≠ '/' ∧ c ≠ '?' ∧ c ≠ '#' := by
  refine ⟨?_, ?_, ?_⟩ <;> rintro rfl <;> revert h <;> decide

theorem segOk_chars {seg : Str} (h : segOk seg = true) :
    ∀ c ∈ seg, c ≠ '/' ∧ c ≠ '?' ∧ c ≠ '#' := by
  simp only [segOk, List.all_eq_true] at h
  intro c hc
  have h2 := h c hc
  refine ⟨?_, ?_, ?_⟩ <;> rintro rfl <;> revert h2 <;> decide

theorem fragSplit_append {a b : Str} (ha : ∀ c ∈ a, c ≠ '#') :
    fragSplit (a ++ '#' :: b) = (a, some b) := by
  have h := splitFirst_append (p := isHash) (l := a) (c := '#') (r := b)
    (fun x hx => isHash_false (ha x hx)) (by decide)
  simp [fragSplit, h]

theorem fragSplit_free {a : Str} (ha : ∀ c ∈ a, c ≠ '#') :
    fragSplit a = (a, none) := by
  have h := splitFirst_eq_none (p := isHash) (s := a)
    (fun x hx => isHash_false (ha x hx))
  simp [fragSplit, h]

theorem fragSplit_optPart {a : Str} (f : Option Str) (ha : ∀ c ∈ a, c ≠ '#') :
    fragSplit (a ++ optPart '#' f) = (a, f) := by
  cases f with
  | none => simpa [optPart] using fragSplit_free ha
  | some b => exact fragSplit_append ha

theorem querySplit_append {a b : Str} (ha : ∀ c ∈ a, c ≠ '?') :
    querySplit (a ++ '?' :: b) = (a, some b) := by
  have h := splitFirst_append (p := isQm) (l := a) (c := '?') (r := b)
    (fun x hx => isQm_false (ha x hx)) (by decide)
  simp [querySplit, h]

theorem querySplit_free {a : Str} (ha : ∀ c ∈ a, c ≠ '?') :
    querySplit a = (a, none) := by
  have h := splitFirst_eq_none (p := isQm) (s := a)
    (fun x hx => isQm_false (ha x hx))
  simp [querySplit, h]

theorem querySplit_optPart {a : Str} (q : Option Str) (ha : ∀ c ∈ a, c ≠ '?') :
    querySplit (a ++ optPart '?' q) = (a, q) := by
  cases q with
  | none => simpa [optPart] using querySplit_free ha
  | some b => exact querySplit_append ha

theorem mem4 {c : Char} {sch X : Str} (h : c ∈ sch ++ ':' :: '/' :: '/' :: X) :
    c ∈ sch ∨ c = ':' ∨ c = '/' ∨ c ∈ X := by
  rcases List.mem_append.mp h with h | h
  · exact Or.inl h
  · rcases List.mem_cons.mp h with rfl | h
    · exact Or.inr (Or.inl rfl)
    · rcases List.mem_cons.mp h with rfl | h
      · exact Or.inr (Or.inr (Or.inl rfl))
      · rcases List.mem_cons.mp h with rfl | h
        · exact Or.inr (Or.inr (Or.inl rfl))
        · exact Or.inr (Or.inr (Or.inr h))

theorem mem_pathStr {c : Char} {segs : Option (List Str)} (h : c ∈ pathStr segs) :
    c = '/' ∨ ∃ l part, segs = some l ∧ part ∈ l ∧ c ∈ part := by
  cases segs with
  | none => simp [pathStr] at h
  | some l =>
    simp only [pathStr] at h
    rcases List.mem_cons.mp h with rfl | h2
    · exact Or.inl rfl
    · rcases mem_joinC h2 with rfl | ⟨part, hp, hc⟩
      · exact Or.inl rfl
      · exact Or.inr ⟨l, part, rfl, hp, hc⟩

theorem mem_optPart {c : Char} {mark : Char} {o : Option Str} (h : c ∈ optPart mark o) :
    c = mark ∨ ∃ q, o = some q ∧ c ∈ q := by
  cases o with
  | none => simp [optPart] at h
  | some q =>
    simp only [optPart] at h
    rcases List.mem_cons.mp h with rfl | h2
    · exact Or.inl rfl
    · exact Or.inr ⟨q, rfl, h2⟩

theorem mem_joinC_intro {sep : Char} {parts : List Str} {part : Str} {c : Char}
    (hp : part ∈ parts) (hc : c ∈ part) : c ∈ joinC sep parts := by
  induction parts with
  | nil => simp at hp
  | cons p ps ih =>
    cases ps with
    | nil =>
      rcases List.mem_cons.mp hp with rfl | h2
      · simpa [joinC] using hc
      · simp at h2
    | cons q qs =>
      have h1 : joinC sep (p :: q :: qs) = p ++ sep :: joinC sep (q :: qs) := rfl
      rw [h1]
      rcases List.mem_cons.mp hp with rfl | h2
      · exact List.mem_append.mpr (Or.inl hc)
      · exact List.mem_append.mpr (Or.inr (List.mem_cons_of_mem _ (ih h2)))

theorem url_parse_toString {u : Url} (h : u.valid = true) :
    Url.parse u.toString = some u := by
  obtain ⟨sch, auth, segs, query, frag⟩ := u
  simp only [Url.valid, Bool.and_eq_true] at h
  obtain ⟨⟨⟨hsch, hauth⟩, hsegs⟩, hq⟩ := h
  have hschF : ∀ c ∈ sch, validSchemeChar c = true := validScheme_chars hsch
  have hauthAll : auth.all authCharOk = true := by
    simp only [validAuth, Bool.and_eq_true] at hauth
    exact hauth.1
  have hauthF : ∀ c ∈ auth, c ≠ '/' ∧ c ≠ '?' ∧ c ≠ '#' :=
    fun c hc => authCharOk_sep (List.all_eq_true.mp hauthAll c hc)
  have hsegsF : ∀ l, segs = some l → ∀ part ∈ l, segOk part = true := by
    intro l hl
    cases segs with
    | none => exact Option.noConfusion hl
    | some l2 =>
      obtain rfl : l2 = l := by injection hl
      simp only [segsOk, Bool.and_eq_true, List.all_eq_true] at hsegs
      exact hsegs.2
  have hsegsNE : ∀ l, segs = some l → l ≠ [] := by
    intro l hl
    cases segs with
    | none => exact Option.noConfusion hl
    | some l2 =>
      obtain rfl : l2 = l := by injection hl
      simp only [segsOk, Bool.and_eq_true] at hsegs
      intro hnil
      rw [hnil] at hsegs
      simp at hsegs
  have hqF : ∀ q2, query = some q2 → ∀ c ∈ q2, c ≠ '#' := by
    intro q2 hq2
    cases query with
    | none => exact Option.noConfusion hq2
    | some q3 =>
      obtain rfl : q3 = q2 := by injection hq2
      intro c hc
      simp only [queryOkOpt] at hq
      have h2 := List.all_eq_true.mp hq c hc
      exact bnot_beq_ne h2
  have hpathF : ∀ c ∈ pathStr segs, c ≠ '?' ∧ c ≠ '#' := by
    intro c hc
    rcases mem_pathStr hc with rfl | ⟨l, part, hl, hpart, hcp⟩
    · exact ⟨by decide, by decide⟩
    · have h2 := segOk_chars (hsegsF l hl part hpart) c hcp
      exact ⟨h2.2.1, h2.2.2⟩
  have hbaseQ : ∀ c ∈ sch ++ ':' :: '/' :: '/' :: (auth ++ pathStr segs), c ≠ '?' := by
    intro c hc
    rcases mem4 hc with hm | rfl | rfl | hm
    · exact (validSchemeChar_sep (hschF c hm)).2.2.1
    · decide
    · decide
    · rcases List.mem_append.mp hm with hm2 | hm2
      · exact (hauthF c hm2).2.1
      · exact (hpathF c hm2).1
  have hbaseH : ∀ c ∈ (sch ++ ':' :: '/' :: '/' :: (auth ++ pathStr segs)) ++ optPart '?' query,
      c ≠ '#' := by
    intro c hc
    rcases List.mem_append.mp hc with hm | hm
    · rcases mem4 hm with hm2 | rfl | rfl | hm2
      · exact (validSchemeChar_sep (hschF c hm2)).2.2.2.1
      · decide
      · decide
      · rcases List.mem_append.mp hm2 with hm3 | hm3
        · exact (hauthF c hm3).2.2
        · exact (hpathF c hm3).2
    · rcases mem_optPart hm with rfl | ⟨q2, hq2, hcq⟩
      · decide
      · exact hqF q2 hq2 c hcq
  have hT : Url.toString ⟨sch, auth, segs, query, frag⟩
      = ((sch ++ ':' :: '/' :: '/' :: (auth ++ pathStr segs)) ++ optPart '?' query)
        ++ optPart '#' frag := by
    simp [Url.toString, List.append_assoc]
  simp only [Url.parse, hT, fragSplit_optPart frag hbaseH, querySplit_optPart query hbaseQ]
  have hschColon : ∀ x ∈ sch, isColon x = false :=
    fun x hx => isColon_false (validSchemeChar_sep (hschF x hx)).1
  have hsplit : splitFirst isColon (sch ++ ':' :: '/' :: '/' :: (auth ++ pathStr segs))
      = some (sch, '/' :: '/' :: (auth ++ pathStr segs)) :=
    splitFirst_append hschColon (by decide)
  simp only [parseCore, hsplit, hsch, if_true]
  cases segs with
  | some l =>
    have hlne : l ≠ [] := hsegsNE l rfl
    have hlF : ∀ part ∈ l, segOk part = true := hsegsF l rfl
    have hauthSlash : ∀ x ∈ auth, isSlash x = false :=
      fun x hx => isSlash_false (hauthF x hx).1
    have hsplit2 : splitFirst isSlash (auth ++ pathStr (some l))
        = some (auth, joinC '/' l) := by
      have hp : pathStr (some l) = '/' :: joinC '/' l := rfl
      rw [hp]
      exact splitFirst_append hauthSlash (by decide)
    simp only [parseAuthPath, hsplit2, hauth, if_true]
    rw [splitOnC_joinC '/' l hlne (fun part hp c hc => (segOk_chars (hlF part hp) c hc).1)]
  | none =>
    have hnospecial : isSpecial sch = false := by
      simp only [segsOk, Bool.not_eq_true'] at hsegs
      exact hsegs
    have hsplit2 : splitFirst isSlash (auth ++ pathStr none) = none := by
      have hp : pathStr none = ([] : Str) := rfl
      rw [hp, List.append_nil]
      exact splitFirst_eq_none (fun x hx => isSlash_false (hauthF x hx).1)
    simp only [parseAuthPath, hsplit2, hauth, if_true, hnospecial]
    have hauth2 : validAuth false (sch == str "file") (auth ++ pathStr none) = true := by
      rw [show pathStr none = ([] : Str) from rfl, List.append_nil, ← hnospecial]
      exact hauth
    rw [if_pos hauth2]
    rw [show pathStr none = ([] : Str) from rfl, List.append_nil]
    simp

theorem splitFirst_none_inv {p : Char → Bool} {s : Str} (h : splitFirst p s = none) :
    ∀ c ∈ s, p c = false := by
  induction s with
  | nil => simp
  | cons a as ih =>
    simp only [splitFirst] at h
    by_cases hp : p a = true
    · rw [if_pos hp] at h; exact absurd h (by simp)
    · rw [if_neg hp] at h
      intro c hc
      rcases List.mem_cons.mp hc with rfl | hm
      · exact eq_false_of_ne_true hp
      · cases hsf : splitFirst p as with
        | none => exact ih hsf c hm
        | some pr => rw [hsf] at h; exact absurd h (by simp)

theorem beqc_false_ne {c d : Char} (h : (c == d) = false) : c ≠ d := by
  intro he
  subst he
  simp at h

theorem segOk_of {seg : Str} (h : ∀ c ∈ seg, c ≠ '/' ∧ c ≠ '?' ∧ c ≠ '#') :
    segOk seg = true := by
  simp only [segOk, List.all_eq_true]
  intro c hc
  obtain ⟨h1, h2, h3⟩ := h c hc
  rw [beqc_false h1, beqc_false h2, beqc_false h3]
  rfl

theorem queryOk_of {q : Str} (h : ∀ c ∈ q, c ≠ '#') :
    (q.all fun c => !(c == '#')) = true := by
  simp only [List.all_eq_true]
  intro c hc
  rw [beqc_false (h c hc)]
  rfl

theorem queryOkOpt_of {query : Option Str}
    (hqF : ∀ q, query = some q → ∀ c ∈ q, c ≠ '#') :
    queryOkOpt query = true := by
  cases query with
  | none => rfl
  | some q => exact queryOk_of (hqF q rfl)

theorem parseAuthPath_sound {sch rest2 : Str} {query frag : Option Str} {u : Url}
    (hsch : validScheme sch = true)
    (hrest : ∀ c ∈ rest2, c ≠ '?' ∧ c ≠ '#')
    (hqF : ∀ q, query = some q → ∀ c ∈ q, c ≠ '#')
    (h : parseAuthPath sch rest2 query frag = some u) :
    u.valid = true ∧ u.scheme = sch ∧ u.query = query ∧ u.frag = frag := by
  have hqv := queryOkOpt_of hqF
  simp only [parseAuthPath] at h
  split at h
  · rename_i auth p hsf
    split at h
    · rename_i hv
      simp only [Option.some.injEq] at h
      subst h
      obtain ⟨hfree, c0, hc0, hdec⟩ := splitFirst_inv hsf
      have hmem : ∀ c ∈ p, c ∈ rest2 := by
        intro c hc
        rw [hdec]
        exact List.mem_append.mpr (Or.inr (List.mem_cons_of_mem _ hc))
      have hsegOk : ∀ part ∈ splitOnC '/' p, segOk part = true := by
        intro part hpart
        apply segOk_of
        intro c hc
        have hslash := splitOnC_sep_free '/' p part hpart c hc
        have hcin : c ∈ p := by
          rw [← joinC_splitOnC '/' p]
          exact mem_joinC_intro hpart hc
        have h2 := hrest c (hmem c hcin)
        exact ⟨hslash, h2.1, h2.2⟩
      refine ⟨?_, rfl, rfl, rfl⟩
      simp only [Url.valid, Bool.and_eq_true]
      refine ⟨⟨⟨hsch, hv⟩, ?_⟩, hqv⟩
      simp only [segsOk, Bool.and_eq_true, List.all_eq_true]
      constructor
      · simp [List.isEmpty_iff, splitOnC_ne_nil]
      · exact hsegOk
    · exact absurd h (by simp)
  · rename_i hsf
    split at h
    · rename_i hv
      simp only [Option.some.injEq] at h
      subst h
      refine ⟨?_, rfl, rfl, rfl⟩
      simp only [Url.valid, Bool.and_eq_true]
      refine ⟨⟨⟨hsch, hv⟩, ?_⟩, hqv⟩
      cases hspec : isSpecial sch with
      | true => decide
      | false => decide
    · exact absurd h (by simp)

theorem parseCore_sound {core : Str} {query frag : Option Str} {u : Url}
    (hcore : ∀ c ∈ core, c ≠ '?' ∧ c ≠ '#')
    (hqF : ∀ q, query = some q → ∀ c ∈ q, c ≠ '#')
    (h : parseCore core query frag = some u) :
    u.valid = true ∧ u.query = query ∧ u.frag = frag ∧
      ∃ rest, splitFirst isColon core = some (u.scheme, rest) := by
  simp only [parseCore] at h
  split at h
  · exact absurd h (by simp)
  · rename_i sch rest hsf
    split at h
    · rename_i hsch
      split at h
      · rename_i rest2
        obtain ⟨hfree, c0, hc0, hdec⟩ := splitFirst_inv hsf
        have hrest2 : ∀ c ∈ rest2, c ≠ '?' ∧ c ≠ '#' := by
          intro c hc
          apply hcore
          rw [hdec]
          exact List.mem_append.mpr (Or.inr (List.mem_cons_of_mem _
            (List.mem_cons_of_mem _ (List.mem_cons_of_mem _ hc))))
        obtain ⟨hval, hu1, hu2, hu3⟩ := parseAuthPath_sound hsch hrest2 hqF h
        exact ⟨hval, hu2, hu3, '/' :: '/' :: rest2, by rw [hsf, hu1]⟩
      · exact absurd h (by simp)
    · exact absurd h (by simp)

theorem url_parse_sound {s : Str} {u : Url} (h : Url.parse s = some u) :
    u.valid = true ∧ u.frag = (fragSplit s).2 ∧
      u.query = (querySplit (fragSplit s).1).2 ∧
      ∃ rest, splitFirst isColon (querySplit (fragSplit s).1).1 = some (u.scheme, rest) := by
  simp only [Url.parse] at h
  have hpfH : ∀ c ∈ (fragSplit s).1, c ≠ '#' := by
    unfold fragSplit
    cases hsf : splitFirst isHash s with
    | none =>
      intro c hc
      exact beqc_false_ne (splitFirst_none_inv hsf c hc)
    | some pr =>
      obtain ⟨a, b⟩ := pr
      intro c hc
      exact beqc_false_ne ((splitFirst_inv hsf).1 c hc)
  have hcoreQ : ∀ c ∈ (querySplit (fragSplit s).1).1, c ≠ '?' := by
    unfold querySplit
    cases hsf : splitFirst isQm (fragSplit s).1 with
    | none =>
      intro c hc
      exact beqc_false_ne (splitFirst_none_inv hsf c hc)
    | some pr =>
      obtain ⟨a, b⟩ := pr
      intro c hc
      exact beqc_false_ne ((splitFirst_inv hsf).1 c hc)
  have hcoreSub : ∀ c ∈ (querySplit (fragSplit s).1).1, c ∈ (fragSplit s).1 := by
    unfold querySplit
    cases hsf : splitFirst isQm (fragSplit s).1 with
    | none => intro c hc; exact hc
    | some pr =>
      obtain ⟨a, b⟩ := pr
      obtain ⟨hfree, c0, hc0, hdec⟩ := splitFirst_inv hsf
      intro c hc
      rw [hdec]
      exact List.mem_append.mpr (Or.inl hc)
  have hcore : ∀ c ∈ (querySplit (fragSplit s).1).1, c ≠ '?' ∧ c ≠ '#' :=
    fun c hc => ⟨hcoreQ c hc, hpfH c (hcoreSub c hc)⟩
  have hqF : ∀ q, (querySplit (fragSplit s).1).2 = some q → ∀ c ∈ q, c ≠ '#' := by
    unfold querySplit
    cases hsf : splitFirst isQm (fragSplit s).1 with
    | none => intro q hq; exact absurd hq (by simp)
    | some pr =>
      obtain ⟨a, b⟩ := pr
      obtain ⟨hfree, c0, hc0, hdec⟩ := splitFirst_inv hsf
      intro q hq
      simp only [Option.some.injEq] at hq
      subst hq
      intro c hc
      apply hpfH
      rw [hdec]
      exact List.mem_append.mpr (Or.inr (List.mem_cons_of_mem _ hc))
  obtain ⟨hval, hq, hf, hrest⟩ := parseCore_sound hcore hqF h
  exact ⟨hval, hf, hq, hrest⟩

theorem valid_parts {u : Url} (h : u.valid = true) :
    validScheme u.scheme = true ∧
    validAuth (isSpecial u.scheme) (u.scheme == str "file") u.auth = true ∧
    (∀ l, u.segs = some l → l ≠ [] ∧ ∀ part ∈ l, segOk part = true) ∧
    (u.segs = none → isSpecial u.scheme = false) ∧
    (∀ q, u.query = some q → ∀ c ∈ q, c ≠ '#') := by
  simp only [Url.valid, Bool.and_eq_true] at h
  obtain ⟨⟨⟨h1, h2⟩, h3⟩, h4⟩ := h
  refine ⟨h1, h2, ?_, ?_, ?_⟩
  · intro l hl
    rw [hl] at h3
    simp only [segsOk, Bool.and_eq_true, List.all_eq_true] at h3
    refine ⟨?_, h3.2⟩
    intro hnil
    rw [hnil] at h3
    simp at h3
  · intro hl
    rw [hl] at h3
    simp only [segsOk, Bool.not_eq_true'] at h3
    exact h3
  · intro q hq c hc
    rw [hq] at h4
    simp only [queryOkOpt] at h4
    exact bnot_beq_ne (List.all_eq_true.mp h4 c hc)

theorem valid_of_parts {u : Url}
    (h1 : validScheme u.scheme = true)
    (h2 : validAuth (isSpecial u.scheme) (u.scheme == str "file") u.auth = true)
    (h3 : segsOk (isSpecial u.scheme) u.segs = true)
    (h4 : queryOkOpt u.query = true) : u.valid = true := by
  simp [Url.valid, h1, h2, h3, h4]

theorem valid_setFrag (u : Url) (f : Option Str) :
    Url.valid { u with frag := f } = u.valid := by
  cases u
  rfl

theorem valid_clearQuery {u : Url} (h : u.valid = true) :
    Url.valid { u with query := none } = true := by
  obtain ⟨sch, auth, segs, q, f⟩ := u
  simp only [Url.valid, Bool.and_eq_true] at h ⊢
  exact ⟨h.1, rfl⟩

theorem validAuth_weaken {spl fi fi2 : Bool} {a : Str}
    (h : validAuth spl fi a = true) : validAuth false fi2 a = true := by
  simp only [validAuth, Bool.and_eq_true] at h ⊢
  obtain ⟨h1, h2⟩ := h
  refine ⟨h1, ?_⟩
  cases hsl : splitLast ':' (hostPort a) with
  | none => simp
  | some pr =>
    obtain ⟨host, port⟩ := pr
    rw [hsl] at h2
    simp only [Bool.and_eq_true] at h2
    simp [h2.1]

theorem validScheme_prefixed {pfx sch2 : Str} (hp : validScheme pfx = true)
    (hs : ∀ c ∈ sch2, validSchemeChar c = true) :
    validScheme (pfx ++ '+' :: sch2) = true := by
  cases pfx with
  | nil => simp [validScheme] at hp
  | cons a rest =>
    simp only [List.cons_append, validScheme, Bool.and_eq_true, List.all_eq_true] at hp ⊢
    refine ⟨hp.1, ?_⟩
    intro c hc
    rcases List.mem_append.mp hc with hm | hm
    · exact hp.2 c hm
    · rcases List.mem_cons.mp hm with rfl | hm2
      · decide
      · exact hs c hm2

theorem isSpecial_plus_git (t : Str) : isSpecial (str "git" ++ '+' :: t) = false := rfl

theorem isSpecial_plus_registry (t : Str) :
    isSpecial (str "registry" ++ '+' :: t) = false := rfl

theorem isSpecial_plus_path (t : Str) : isSpecial (str "path" ++ '+' :: t) = false := rfl

theorem isSpecial_plus_sparse (t : Str) :
    isSpecial (str "sparse" ++ '+' :: t) = false := rfl

theorem toString_splits {sch2 auth : Str} {segs : Option (List Str)}
    {query frag : Option Str}
    (hschF : ∀ c ∈ sch2, validSchemeChar c = true)
    (hauthF : ∀ c ∈ auth, c ≠ '/' ∧ c ≠ '?' ∧ c ≠ '#')
    (hsegsF : ∀ l, segs = some l → ∀ part ∈ l, segOk part = true)
    (hqF : ∀ q, query = some q → ∀ c ∈ q, c ≠ '#') :
    Url.toString ⟨sch2, auth, segs, query, frag⟩
        = ((sch2 ++ ':' :: '/' :: '/' :: (auth ++ pathStr segs)) ++ optPart '?' query)
          ++ optPart '#' frag
    ∧ fragSplit (Url.toString ⟨sch2, auth, segs, query, frag⟩)
        = ((sch2 ++ ':' :: '/' :: '/' :: (auth ++ pathStr segs)) ++ optPart '?' query, frag)
    ∧ querySplit ((sch2 ++ ':' :: '/' :: '/' :: (auth ++ pathStr segs)) ++ optPart '?' query)
        = (sch2 ++ ':' :: '/' :: '/' :: (auth ++ pathStr segs), query)
    ∧ splitFirst isColon (sch2 ++ ':' :: '/' :: '/' :: (auth ++ pathStr segs))
        = some (sch2, '/' :: '/' :: (auth ++ pathStr segs)) := by
  have hpathF : ∀ c ∈ pathStr segs, c ≠ '?' ∧ c ≠ '#' := by
    intro c hc
    rcases mem_pathStr hc with rfl | ⟨l, part, hl, hpart, hcp⟩
    · exact ⟨by decide, by decide⟩
    · have h2 := segOk_chars (hsegsF l hl part hpart) c hcp
      exact ⟨h2.2.1, h2.2.2⟩
  have hbaseQ : ∀ c ∈ sch2 ++ ':' :: '/' :: '/' :: (auth ++ pathStr segs), c ≠ '?' := by
    intro c hc
    rcases mem4 hc with hm | rfl | rfl | hm
    · exact (validSchemeChar_sep (hschF c hm)).2.2.1
    · decide
    · decide
    · rcases List.mem_append.mp hm with hm2 | hm2
      · exact (hauthF c hm2).2.1
      · exact (hpathF c hm2).1
  have hbaseH : ∀ c ∈ (sch2 ++ ':' :: '/' :: '/' :: (auth ++ pathStr segs))
      ++ optPart '?' query, c ≠ '#' := by
    intro c hc
    rcases List.mem_append.mp hc with hm | hm
    · rcases mem4 hm with hm2 | rfl | rfl | hm2
      · exact (validSchemeChar_sep (hschF c hm2)).2.2.2.1
      · decide
      · decide
      · rcases List.mem_append.mp hm2 with hm3 | hm3
        · exact (hauthF c hm3).2.2
        · exact (hpathF c hm3).2
    · rcases mem_optPart hm with rfl | ⟨q2, hq2, hcq⟩
      · decide
      · exact hqF q2 hq2 c hcq
  have hT : Url.toString ⟨sch2, auth, segs, query, frag⟩
      = ((sch2 ++ ':' :: '/' :: '/' :: (auth ++ pathStr segs)) ++ optPart '?' query)
        ++ optPart '#' frag := by
    simp [Url.toString, List.append_assoc]
  have hschColon : ∀ x ∈ sch2, isColon x = false :=
    fun x hx => isColon_false (validSchemeChar_sep (hschF x hx)).1
  refine ⟨hT, ?_, ?_, ?_⟩
  · rw [hT]
    exact fragSplit_optPart frag hbaseH
  · exact querySplit_optPart query hbaseQ
  · exact splitFirst_append hschColon (by decide)

theorem strip_eq {u : Url} {k rest : Str}
    (hsch : splitFirst isPlus u.scheme = some (k, rest)) :
    stripUrlProtocol u = Url.parse (Url.toString { u with scheme := rest }) := by
  obtain ⟨sch, auth, segs, q, f⟩ := u
  simp only at hsch
  obtain ⟨hfree, c0, hc0, hdec⟩ := splitFirst_inv hsch
  have hc0e : c0 = '+' := by
    simp only [isPlus] at hc0
    exact beq_iff_eq.mp hc0
  subst hc0e
  have hT : Url.toString ⟨sch, auth, segs, q, f⟩
      = k ++ '+' :: Url.toString ⟨rest, auth, segs, q, f⟩ := by
    simp [Url.toString, hdec, List.append_assoc]
  simp only [stripUrlProtocol, hT,
    splitFirst_append (c := '+') hfree (by decide)]

theorem strip_proj {u1 : Url} {k rest : Str} {u2 : Url}
    (hval : u1.valid = true)
    (hsch : splitFirst isPlus u1.scheme = some (k, rest))
    (hq : u1.query = none)
    (h : stripUrlProtocol u1 = some u2) :
    u2.valid = true ∧ u2.frag = u1.frag ∧ u2.query = none ∧ u2.scheme = rest := by
  rw [strip_eq hsch] at h
  obtain ⟨hv1, hv2, hv3, hv4, hv5⟩ := valid_parts hval
  obtain ⟨hfree, c0, hc0, hdec⟩ := splitFirst_inv hsch
  have hrestF : ∀ c ∈ rest, validSchemeChar c = true := by
    intro c hc
    apply validScheme_chars hv1
    rw [hdec]
    exact List.mem_append.mpr (Or.inr (List.mem_cons_of_mem _ hc))
  have hauthF : ∀ c ∈ u1.auth, c ≠ '/' ∧ c ≠ '?' ∧ c ≠ '#' := by
    intro c hc
    have hall : u1.auth.all authCharOk = true := by
      simp only [validAuth, Bool.and_eq_true] at hv2
      exact hv2.1
    exact authCharOk_sep (List.all_eq_true.mp hall c hc)
  have hsegsF : ∀ l, u1.segs = some l → ∀ part ∈ l, segOk part = true :=
    fun l hl => (hv3 l hl).2
  have hqF : ∀ q2, (none : Option Str) = some q2 → ∀ c ∈ q2, c ≠ '#' :=
    fun q2 hq2 => Option.noConfusion hq2
  have hu1' : ({ u1 with scheme := rest } : Url)
      = ⟨rest, u1.auth, u1.segs, none, u1.frag⟩ := by
    obtain ⟨sch, auth, segs, q, f⟩ := u1
    simp only at hq
    rw [hq]
  rw [hu1'] at h
  obtain ⟨hTS, hFS, hQS, hCS⟩ := toString_splits hrestF hauthF hsegsF hqF
  obtain ⟨hval2, hfrag2, hq2, rest2, hsplit2⟩ := url_parse_sound h
  rw [hFS] at hfrag2 hq2 hsplit2
  rw [hQS] at hq2 hsplit2
  rw [hCS] at hsplit2
  simp only [Option.some.injEq, Prod.mk.injEq] at hsplit2
  obtain ⟨hr3, hr4⟩ := hsplit2
  exact ⟨hval2, hfrag2, hq2, hr3.symm⟩

theorem setFrag_self {u : Url} (h : u.frag = none) : { u with frag := none } = u := by
  obtain ⟨a, b, c, d, e⟩ := u
  simp only at h
  rw [h]

theorem afterKind_inv {u : Url} {kind : Option SourceKind} {loc : PackageIdSpec}
    (h : afterKind u kind = .ok loc) :
    ∃ l lastSeg, u.segs = some l ∧ l.getLast? = some lastSeg ∧
      loc.url = some { u with frag := none } ∧ loc.kind = kind ∧
      ((u.frag = none ∧ loc.name = lastSeg ∧ loc.version = none) ∨
       (∃ f, u.frag = some f ∧
         ((∃ r v, splitFirst isSep f = some (loc.name, r) ∧
             PartialVersion.parse r = some v ∧ loc.version = some v) ∨
          (splitFirst isSep f = none ∧ (∃ c rest, f = c :: rest ∧ isAlphaC c = true) ∧
             loc.name = f ∧ loc.version = none) ∨
          (splitFirst isSep f = none ∧ (∃ c rest, f = c :: rest ∧ isAlphaC c = false) ∧
             loc.name = lastSeg ∧
             ∃ v, PartialVersion.parse f = some v ∧ loc.version = some v)))) := by
  obtain ⟨sch, auth, segs0, q0, f0⟩ := u
  cases segs0 with
  | none => simp [afterKind] at h
  | some l =>
    cases hlast : l.getLast? with
    | none => simp [afterKind, hlast] at h
    | some pathName =>
      refine ⟨l, pathName, rfl, hlast, ?_⟩
      cases f0 with
      | none =>
        simp only [afterKind, hlast] at h
        injection h with h2
        subst h2
        exact ⟨by simp, by simp, Or.inl ⟨by simp, rfl, rfl⟩⟩
      | some f =>
        simp only [afterKind, hlast] at h
        cases hsep : splitFirst isSep f with
        | some pr =>
          obtain ⟨nm, part⟩ := pr
          simp only [hsep] at h
          cases hpv : PartialVersion.parse part with
          | none => simp [hpv] at h
          | some v =>
            simp only [hpv] at h
            injection h with h2
            subst h2
            exact ⟨by simp, by simp, Or.inr ⟨f, by simp,
              Or.inl ⟨part, v, hsep, hpv, rfl⟩⟩⟩
        | none =>
          simp only [hsep] at h
          cases f with
          | nil => simp at h
          | cons c rest =>
            simp only [List.head?_cons] at h
            by_cases halpha : isAlphaC c = true
            · rw [if_pos halpha] at h
              injection h with h2
              subst h2
              exact ⟨by simp, by simp, Or.inr ⟨c :: rest, by simp,
                Or.inr (Or.inl ⟨hsep, ⟨c, rest, rfl, halpha⟩, rfl, rfl⟩)⟩⟩
            · rw [if_neg halpha] at h
              cases hpv : PartialVersion.parse (c :: rest) with
              | none => simp [hpv] at h
              | some v =>
                simp only [hpv] at h
                injection h with h2
                subst h2
                exact ⟨by simp, by simp, Or.inr ⟨c :: rest, by simp,
                  Or.inr (Or.inr ⟨hsep, ⟨c, rest, rfl, eq_false_of_ne_true halpha⟩,
                    rfl, v, hpv, rfl⟩)⟩⟩

theorem afterKind_ok_nofrag {u : Url} {l : List Str} {lastSeg : Str}
    {kind : Option SourceKind}
    (hs : u.segs = some l) (hl : l.getLast? = some lastSeg) (hf : u.frag = none) :
    afterKind u kind = .ok ⟨lastSeg, none, some { u with frag := none }, kind⟩ := by
  obtain ⟨sch, auth, segs0, q0, f0⟩ := u
  simp only at hs hl hf
  subst hf
  simp [afterKind, hs, hl]

theorem afterKind_ok_alpha {u : Url} {l : List Str} {lastSeg nm : Str}
    {kind : Option SourceKind} {c : Char} {rest : Str}
    (hs : u.segs = some l) (hl : l.getLast? = some lastSeg) (hf : u.frag = some nm)
    (hsep : splitFirst isSep nm = none) (hcons : nm = c :: rest)
    (halpha : isAlphaC c = true) :
    afterKind u kind = .ok ⟨nm, none, some { u with frag := none }, kind⟩ := by
  obtain ⟨sch, auth, segs0, q0, f0⟩ := u
  simp only at hs hl hf
  subst hf
  subst hcons
  simp [afterKind, hs, hl, hsep, halpha]

theorem afterKind_ok_split {u : Url} {l : List Str} {lastSeg nm vs : Str}
    {kind : Option SourceKind} {v : PartialVersion}
    (hs : u.segs = some l) (hl : l.getLast? = some lastSeg)
    (hf : u.frag = some (nm ++ '@' :: vs))
    (hnm : ∀ x ∈ nm, isSep x = false)
    (hv : PartialVersion.parse vs = some v) :
    afterKind u kind = .ok ⟨nm, some v, some { u with frag := none }, kind⟩ := by
  obtain ⟨sch, auth, segs0, q0, f0⟩ := u
  simp only at hs hl hf
  subst hf
  simp [afterKind, hs, hl, splitFirst_append (c := '@') hnm (by decide), hv]

theorem afterKind_ok_ver {u : Url} {l : List Str} {lastSeg vs : Str}
    {kind : Option SourceKind} {c : Char} {rest : Str} {v : PartialVersion}
    (hs : u.segs = some l) (hl : l.getLast? = some lastSeg) (hf : u.frag = some vs)
    (hsep : splitFirst isSep vs = none) (hcons : vs = c :: rest)
    (halpha : isAlphaC c = false)
    (hv : PartialVersion.parse vs = some v) :
    afterKind u kind = .ok ⟨lastSeg, some v, some { u with frag := none }, kind⟩ := by
  obtain ⟨sch, auth, segs0, q0, f0⟩ := u
  simp only at hs hl hf
  subst hf
  subst hcons
  simp [afterKind, hs, hl, hsep, halpha, hv]

theorem fromUrl_inv {u0 : Url} {loc : PackageIdSpec}
    (hval : u0.valid = true) (h : fromUrl u0 = .ok loc) :
    ∃ u2 kind, afterKind u2 kind = .ok loc ∧ u2.query = none ∧ u2.frag = u0.frag ∧
      u2.valid = true ∧ loc.kind = kind ∧
      ((splitFirst isPlus u0.scheme = none ∧ kind = none ∧ u2 = u0 ∧ u0.query = none) ∨
       (∃ rest, splitFirst isPlus u0.scheme = some (str "git", rest) ∧
         kind = some (.git (GitReference.fromQuery (queryPairs u0.query))) ∧
         stripUrlProtocol { u0 with query := none } = some u2 ∧ u2.scheme = rest) ∨
       (∃ rest, splitFirst isPlus u0.scheme = some (str "registry", rest) ∧
         kind = some .registry ∧ u0.query = none ∧
         stripUrlProtocol u0 = some u2 ∧ u2.scheme = rest) ∨
       (∃ rest, splitFirst isPlus u0.scheme = some (str "sparse", rest) ∧
         kind = some .sparseRegistry ∧ u0.query = none ∧ u2 = u0) ∨
       (∃ rest, splitFirst isPlus u0.scheme = some (str "path", rest) ∧ rest = str "file" ∧
         kind = some .path ∧ u0.query = none ∧
         stripUrlProtocol u0 = some u2 ∧ u2.scheme = str "file")) := by
  have hkind : ∀ u2 k, afterKind u2 k = .ok loc → loc.kind = k := by
    intro u2 k hak
    obtain ⟨l, lastSeg, h1, h2, h3, h4, h5⟩ := afterKind_inv hak
    exact h4
  simp only [fromUrl] at h
  cases hsch : splitFirst isPlus u0.scheme with
  | none =>
    simp only [hsch] at h
    cases hq : u0.query with
    | some q => simp [hq] at h
    | none =>
      simp only [hq, Option.isSome_none, Bool.false_eq_true, if_false] at h
      exact ⟨u0, none, h, hq, rfl, hval, hkind u0 none h,
        Or.inl ⟨rfl, rfl, rfl, rfl⟩⟩
  | some pr =>
    obtain ⟨kindStr, scheme2⟩ := pr
    simp only [hsch] at h
    by_cases hgit : kindStr = str "git"
    · rw [if_pos hgit] at h
      subst hgit
      cases hstrip : stripUrlProtocol { u0 with query := none } with
      | none => simp [hstrip] at h
      | some u2 =>
        simp only [hstrip] at h
        have hq1 : ({ u0 with query := none } : Url).query = none := rfl
        have hv1 : ({ u0 with query := none } : Url).valid = true := valid_clearQuery hval
        have hsch1 : splitFirst isPlus ({ u0 with query := none } : Url).scheme
            = some (str "git", scheme2) := hsch
        obtain ⟨hv2, hfr2, hq2, hsch2⟩ := strip_proj hv1 hsch1 hq1 hstrip
        have hfr2b : u2.frag = u0.frag := hfr2
        exact ⟨u2, _, h, hq2, hfr2b, hv2, hkind u2 _ h,
          Or.inr (Or.inl ⟨scheme2, rfl, rfl, rfl, hsch2⟩)⟩
    · rw [if_neg hgit] at h
      by_cases hreg : kindStr = str "registry"
      · rw [if_pos hreg] at h
        subst hreg
        cases hq : u0.query with
        | some q => simp [hq] at h
        | none =>
          simp only [hq, Option.isSome_none, Bool.false_eq_true, if_false] at h
          cases hstrip : stripUrlProtocol u0 with
          | none => simp [hstrip] at h
          | some u2 =>
            simp only [hstrip] at h
            obtain ⟨hv2, hfr2, hq2, hsch2⟩ := strip_proj hval hsch hq hstrip
            exact ⟨u2, _, h, hq2, hfr2, hv2, hkind u2 _ h,
              Or.inr (Or.inr (Or.inl ⟨scheme2, rfl, rfl, rfl, rfl, hsch2⟩))⟩
      · rw [if_neg hreg] at h
        by_cases hsp : kindStr = str "sparse"
        · rw [if_pos hsp] at h
          subst hsp
          cases hq : u0.query with
          | some q => simp [hq] at h
          | none =>
            simp only [hq, Option.isSome_none, Bool.false_eq_true, if_false] at h
            exact ⟨u0, _, h, hq, rfl, hval, hkind u0 _ h,
              Or.inr (Or.inr (Or.inr (Or.inl ⟨scheme2, rfl, rfl, rfl, rfl⟩)))⟩
        · rw [if_neg hsp] at h
          by_cases hpa : kindStr = str "path"
          · rw [if_pos hpa] at h
            subst hpa
            cases hq : u0.query with
            | some q => simp [hq] at h
            | none =>
              simp only [hq, Option.isSome_none, Bool.false_eq_true, if_false] at h
              by_cases hfile : scheme2 = str "file"
              · rw [if_neg (by simp [hfile])] at h
                subst hfile
                cases hstrip : stripUrlProtocol u0 with
                | none => simp [hstrip] at h
                | some u2 =>
                  simp only [hstrip] at h
                  obtain ⟨hv2, hfr2, hq2, hsch2⟩ := strip_proj hval hsch hq hstrip
                  exact ⟨u2, _, h, hq2, hfr2, hv2, hkind u2 _ h,
                    Or.inr (Or.inr (Or.inr (Or.inr
                      ⟨str "file", rfl, rfl, rfl, rfl, rfl, hsch2⟩)))⟩
              · rw [if_pos hfile] at h
                exact absurd h (by simp)
          · rw [if_neg hpa] at h
            exact absurd h (by simp)

/-! ### Git reference round trip -/

theorem grefOk_step {acc : GitReference} {kv : Str × Str}
    (hacc : grefOk acc) (hkv : ∀ c ∈ kv.2, c ≠ '&' ∧ c ≠ '#') :
    grefOk (if kv.fst = str "branch" then .branch kv.snd
      else if kv.fst = str "tag" then .tag kv.snd
      else if kv.fst = str "rev" then .rev kv.snd
      else acc) := by
  by_cases h1 : kv.fst = str "branch"
  · rw [if_pos h1]
    intro p hp
    simp only [grefPayload, Option.some.injEq] at hp
    subst hp
    exact hkv
  · rw [if_neg h1]
    by_cases h2 : kv.fst = str "tag"
    · rw [if_pos h2]
      intro p hp
      simp only [grefPayload, Option.some.injEq] at hp
      subst hp
      exact hkv
    · rw [if_neg h2]
      by_cases h3 : kv.fst = str "rev"
      · rw [if_pos h3]
        intro p hp
        simp only [grefPayload, Option.some.injEq] at hp
        subst hp
        exact hkv
      · rw [if_neg h3]
        exact hacc

theorem grefOk_foldl {pairs : List (Str × Str)} {acc : GitReference}
    (hacc : grefOk acc)
    (hpairs : ∀ kv ∈ pairs, ∀ c ∈ kv.2, c ≠ '&' ∧ c ≠ '#') :
    grefOk (pairs.foldl
      (fun acc kv =>
        if kv.fst = str "branch" then .branch kv.snd
        else if kv.fst = str "tag" then .tag kv.snd
        else if kv.fst = str "rev" then .rev kv.snd
        else acc)
      acc) := by
  induction pairs generalizing acc with
  | nil => exact hacc
  | cons kv rest ih =>
    simp only [List.foldl_cons]
    exact ih (grefOk_step hacc (hpairs kv (List.mem_cons_self kv rest)))
      (fun kv2 h2 => hpairs kv2 (List.mem_cons_of_mem kv h2))

theorem grefOk_default : grefOk .defaultBranch := by
  intro p hp
  exact Option.noConfusion hp

theorem queryPairs_values {q : Option Str}
    (hq : ∀ s, q = some s → ∀ c ∈ s, c ≠ '#') :
    ∀ kv ∈ queryPairs q, ∀ c ∈ kv.2, c ≠ '&' ∧ c ≠ '#' := by
  cases q with
  | none => simp [queryPairs]
  | some s =>
    intro kv hkv c hc
    simp only [queryPairs, List.mem_map, List.mem_filter] at hkv
    obtain ⟨piece, ⟨hpiece, hne⟩, hkv2⟩ := hkv
    have hcp : c ∈ piece := by
      cases hsp : splitFirst isEqc piece with
      | some pr =>
        obtain ⟨k, v⟩ := pr
        rw [hsp] at hkv2
        obtain ⟨hfree, c0, hc0, hdec⟩ := splitFirst_inv hsp
        rw [← hkv2] at hc
        simp only at hc
        rw [hdec]
        exact List.mem_append.mpr (Or.inr (List.mem_cons_of_mem _ hc))
      | none =>
        rw [hsp] at hkv2
        rw [← hkv2] at hc
        simp only at hc
        exact absurd hc (by simp)
    have hamp : c ≠ '&' := splitOnC_sep_free '&' s piece hpiece c hcp
    have hcs : c ∈ s := by
      rw [← joinC_splitOnC '&' s]
      exact mem_joinC_intro hpiece hcp
    exact ⟨hamp, hq s rfl c hcs⟩

theorem gref_fromQuery_ok {q : Option Str}
    (hq : ∀ s, q = some s → ∀ c ∈ s, c ≠ '#') :
    grefOk (GitReference.fromQuery (queryPairs q)) :=
  grefOk_foldl grefOk_default (queryPairs_values hq)

theorem gref_rt {g : GitReference} (hOk : grefOk g) :
    GitReference.fromQuery (queryPairs g.prettyRef) = g := by
  cases g with
  | defaultBranch => rfl
  | branch b =>
    have hbfree : ∀ c ∈ b, c ≠ '&' ∧ c ≠ '#' := hOk b rfl
    have hsoc : splitOnC '&' (str "branch=" ++ b) = [str "branch=" ++ b] := by
      apply splitOnC_free
      intro c hc
      rcases List.mem_append.mp hc with hm | hm
      · exact (by decide : ∀ x ∈ str "branch=", x ≠ '&') c hm
      · exact (hbfree c hm).1
    have hsp : splitFirst isEqc (str "branch=" ++ b) = some (str "branch", b) := by
      have he : str "branch=" ++ b = str "branch" ++ '=' :: b := rfl
      rw [he]
      exact splitFirst_append (by decide) (by decide)
    have hne : (str "branch=" ++ b).isEmpty = false := by
      cases hb : str "branch=" ++ b with
      | nil => exact absurd hb (by simp [str])
      | cons x xs => rfl
    simp +decide [GitReference.prettyRef, queryPairs, hsoc, hne, hsp,
      GitReference.fromQuery]
  | tag tg =>
    have hbfree : ∀ c ∈ tg, c ≠ '&' ∧ c ≠ '#' := hOk tg rfl
    have hsoc : splitOnC '&' (str "tag=" ++ tg) = [str "tag=" ++ tg] := by
      apply splitOnC_free
      intro c hc
      rcases List.mem_append.mp hc with hm | hm
      · exact (by decide : ∀ x ∈ str "tag=", x ≠ '&') c hm
      · exact (hbfree c hm).1
    have hsp : splitFirst isEqc (str "tag=" ++ tg) = some (str "tag", tg) := by
      have he : str "tag=" ++ tg = str "tag" ++ '=' :: tg := rfl
      rw [he]
      exact splitFirst_append (by decide) (by decide)
    have hne : (str "tag=" ++ tg).isEmpty = false := by
      cases hb : str "tag=" ++ tg with
      | nil => exact absurd hb (by simp [str])
      | cons x xs => rfl
    simp +decide [GitReference.prettyRef, queryPairs, hsoc, hne, hsp,
      GitReference.fromQuery]
  | rev rv =>
    have hbfree : ∀ c ∈ rv, c ≠ '&' ∧ c ≠ '#' := hOk rv rfl
    have hsoc : splitOnC '&' (str "rev=" ++ rv) = [str "rev=" ++ rv] := by
      apply splitOnC_free
      intro c hc
      rcases List.mem_append.mp hc with hm | hm
      · exact (by decide : ∀ x ∈ str "rev=", x ≠ '&') c hm
      · exact (hbfree c hm).1
    have hsp : splitFirst isEqc (str "rev=" ++ rv) = some (str "rev", rv) := by
      have he : str "rev=" ++ rv = str "rev" ++ '=' :: rv := rfl
      rw [he]
      exact splitFirst_append (by decide) (by decide)
    have hne : (str "rev=" ++ rv).isEmpty = false := by
      cases hb : str "rev=" ++ rv with
      | nil => exact absurd hb (by simp [str])
      | cons x xs => rfl
    simp +decide [GitReference.prettyRef, queryPairs, hsoc, hne, hsp,
      GitReference.fromQuery]

/-! ### Reparsing a rendered locator -/

theorem url_eta_qf {u : Url} (hq : u.query = none) (hf : u.frag = none) :
    (⟨u.scheme, u.auth, u.segs, none, none⟩ : Url) = u := by
  obtain ⟨a, b, c, d, e⟩ := u
  simp only at hq hf
  rw [hq, hf]

theorem updFrag_updFrag (u : Url) (F G : Option Str) :
    ({ ({ u with frag := F } : Url) with frag := G } : Url) = { u with frag := G } := by
  cases u
  rfl

theorem segs_updFrag (u : Url) (F : Option Str) :
    ({ u with frag := F } : Url).segs = u.segs := by
  cases u
  rfl

theorem frag_updFrag (u : Url) (F : Option Str) :
    ({ u with frag := F } : Url).frag = F := by
  cases u
  rfl

theorem afterKind_rt {uu : Url} {l : List Str} {lastSeg name : Str}
    {ver : Option PartialVersion} (kind : Option SourceKind)
    (hs : uu.segs = some l) (hl : l.getLast? = some lastSeg) (hf : uu.frag = none)
    (hA : ver = none → name ≠ lastSeg →
      splitFirst isSep name = none ∧ ∃ c r, name = c :: r ∧ isAlphaC c = true)
    (hB : ∀ v, ver = some v → name ≠ lastSeg → ∀ x ∈ name, isSep x = false) :
    afterKind { uu with frag := rtFrag name ver lastSeg } kind
      = .ok ⟨name, ver, some uu, kind⟩ := by
  have hs2 : ({ uu with frag := rtFrag name ver lastSeg } : Url).segs = some l := by
    rw [segs_updFrag]
    exact hs
  by_cases hnl : name = lastSeg
  · subst hnl
    cases ver with
    | none =>
      have hfr : ({ uu with frag := rtFrag name none name } : Url).frag = none := by
        rw [frag_updFrag]
        simp [rtFrag]
      have hr := @afterKind_ok_nofrag _ _ _ kind hs2 hl hfr
      rw [hr, updFrag_updFrag, setFrag_self hf]
    | some v =>
      obtain ⟨c, crest, hcons, hdig⟩ := pv_toStr_head (v := v)
      have hfr : ({ uu with frag := rtFrag name (some v) name } : Url).frag
          = some v.toStr := by
        rw [frag_updFrag]
        simp [rtFrag]
      have hsep : splitFirst isSep v.toStr = none :=
        splitFirst_eq_none (fun x hx =>
          isSep_false (pv_toStr_sep_free x hx).1 (pv_toStr_sep_free x hx).2.1)
      have hr := @afterKind_ok_ver _ _ _ _ kind _ _ _ hs2 hl hfr hsep hcons
        (isDigitC_not_alpha hdig) (pv_parse_toStr v)
      rw [hr, updFrag_updFrag, setFrag_self hf]
  · cases ver with
    | none =>
      obtain ⟨hsep, c, crest, hcons, halpha⟩ := hA rfl hnl
      have hfr : ({ uu with frag := rtFrag name none lastSeg } : Url).frag
          = some name := by
        rw [frag_updFrag]
        simp [rtFrag, hnl]
      have hr := @afterKind_ok_alpha _ _ _ _ kind _ _ hs2 hl hfr hsep hcons halpha
      rw [hr, updFrag_updFrag, setFrag_self hf]
    | some v =>
      have hnm := hB v rfl hnl
      have hfr : ({ uu with frag := rtFrag name (some v) lastSeg } : Url).frag
          = some (name ++ '@' :: v.toStr) := by
        rw [frag_updFrag]
        simp [rtFrag, hnl]
      have hr := @afterKind_ok_split _ _ _ _ _ kind _ hs2 hl hfr hnm (pv_parse_toStr v)
      rw [hr, updFrag_updFrag, setFrag_self hf]

theorem qPart_eq (kind : Option SourceKind) :
    (match kind with
      | some (.git g) => (match g.prettyRef with | some pr => '?' :: pr | none => [])
      | _ => ([] : Str))
    = (match rtQuery kind with | some pr => '?' :: pr | none => []) := by
  cases kind with
  | none => rfl
  | some k =>
    cases k with
    | git g => cases g <;> rfl
    | registry => rfl
    | sparseRegistry => rfl
    | path => rfl

theorem render_rt {uu : Url} {l : List Str} {lastSeg name : Str}
    {ver : Option PartialVersion} {kind : Option SourceKind}
    (hs : uu.segs = some l) (hl : l.getLast? = some lastSeg) :
    render ⟨name, ver, some uu, kind⟩
      = some (protoStr kind ++ uu.toString ++ optPart '?' (rtQuery kind)
          ++ optPart '#' (rtFrag name ver lastSeg)) := by
  have hpp : (match kind with
      | some k => (match k.protocol with | some p => p ++ ['+'] | none => [])
      | none => ([] : Str)) = protoStr kind := by
    cases kind with
    | none => rfl
    | some k => rfl
  simp only [render, hs, hl, hpp]
  by_cases hnl : name = lastSeg
  · subst hnl
    simp only [ne_eq, not_true_eq_false, if_false, rtFrag, if_pos rfl]
    cases ver with
    | none =>
      simp [optPart]
      exact qPart_eq kind
    | some v =>
      simp [optPart, List.append_assoc]
      exact qPart_eq kind
  · have hnl2 : lastSeg ≠ name := fun h2 => hnl h2.symm
    simp only [ne_eq, rtFrag, if_neg hnl]
    rw [if_pos (by exact hnl2)]
    cases ver with
    | none =>
      simp [optPart]
      exact qPart_eq kind
    | some v =>
      simp [optPart, List.append_assoc]
      exact qPart_eq kind

theorem scheme_updFrag (u : Url) (F : Option Str) :
    ({ u with frag := F } : Url).scheme = u.scheme := by
  cases u
  rfl

theorem query_updFrag (u : Url) (F : Option Str) :
    ({ u with frag := F } : Url).query = u.query := by
  cases u
  rfl

theorem updQF_eq {u : Url} (hq : u.query = none) (F : Option Str) :
    ({ u with query := none, frag := F } : Url) = { u with frag := F } := by
  obtain ⟨a, b, c, d, e⟩ := u
  simp only at hq
  rw [hq]

theorem toString_extend {u : Url} (hq : u.query = none) (hf : u.frag = none)
    (Q F : Option Str) :
    Url.toString { u with query := Q, frag := F }
      = u.toString ++ optPart '?' Q ++ optPart '#' F := by
  obtain ⟨a, b, c, d, e⟩ := u
  simp only at hq hf
  subst hq
  subst hf
  simp [Url.toString, optPart, List.append_assoc]

theorem toString_prefixScheme (w : Url) (pfx : Str) :
    pfx ++ '+' :: w.toString = Url.toString { w with scheme := pfx ++ '+' :: w.scheme } := by
  obtain ⟨a, b, c, d, e⟩ := w
  simp [Url.toString, List.append_assoc]

theorem hasSub_toString (w : Url) : hasSub (str "://") w.toString = true := by
  obtain ⟨a, b, c, d, e⟩ := w
  have h1 : Url.toString ⟨a, b, c, d, e⟩
      = a ++ str "://" ++ (b ++ pathStr c ++ optPart '?' d ++ optPart '#' e) := by
    simp [Url.toString, str, List.append_assoc]
  rw [h1]
  exact hasSub_intro _ _ _

theorem segsOk_some_of {l : List Str} (h1 : l ≠ [])
    (h2 : ∀ part ∈ l, segOk part = true) (b : Bool) : segsOk b (some l) = true := by
  simp [segsOk, List.isEmpty_iff, h1, List.all_eq_true.mpr h2]

theorem prettyRef_queryOk {g : GitReference} (hOk : grefOk g) :
    queryOkOpt g.prettyRef = true := by
  cases g with
  | defaultBranch => rfl
  | branch b =>
    apply queryOkOpt_of
    intro q hq c hc
    simp only [GitReference.prettyRef, Option.some.injEq] at hq
    subst hq
    rcases List.mem_append.mp hc with hm | hm
    · exact (by decide : ∀ x ∈ str "branch=", x ≠ '#') c hm
    · exact (hOk b rfl c hm).2
  | tag tg =>
    apply queryOkOpt_of
    intro q hq c hc
    simp only [GitReference.prettyRef, Option.some.injEq] at hq
    subst hq
    rcases List.mem_append.mp hc with hm | hm
    · exact (by decide : ∀ x ∈ str "tag=", x ≠ '#') c hm
    · exact (hOk tg rfl c hm).2
  | rev rv =>
    apply queryOkOpt_of
    intro q hq c hc
    simp only [GitReference.prettyRef, Option.some.injEq] at hq
    subst hq
    rcases List.mem_append.mp hc with hm | hm
    · exact (by decide : ∀ x ∈ str "rev=", x ≠ '#') c hm
    · exact (hOk rv rfl c hm).2

theorem strip_rt {uu : Url} {pfx : Str} {F : Option Str}
    (hval : uu.valid = true) (hq : uu.query = none)
    (hpfx : ∀ x ∈ pfx, isPlus x = false) :
    stripUrlProtocol ⟨pfx ++ '+' :: uu.scheme, uu.auth, uu.segs, none, F⟩
      = some { uu with frag := F } := by
  obtain ⟨a, b, c, d, e⟩ := uu
  simp only at hq
  subst hq
  have hsch : splitFirst isPlus
      ((⟨pfx ++ '+' :: a, b, c, none, F⟩ : Url).scheme) = some (pfx, a) :=
    splitFirst_append hpfx (by decide)
  rw [strip_eq hsch]
  have heq : ({ (⟨pfx ++ '+' :: a, b, c, none, F⟩ : Url) with scheme := a } : Url)
      = (⟨a, b, c, none, F⟩ : Url) := rfl
  rw [heq]
  exact url_parse_toString (by rw [show (⟨a, b, c, none, F⟩ : Url)
    = { (⟨a, b, c, none, none⟩ : Url) with frag := F } from rfl, valid_setFrag]; exact hval)

theorem fromUrl_rt {uu : Url} {l : List Str} {lastSeg name : Str}
    {ver : Option PartialVersion} {kind : Option SourceKind}
    (hval : uu.valid = true) (hq : uu.query = none) (hf : uu.frag = none)
    (hs : uu.segs = some l) (hl : l.getLast? = some lastSeg)
    (hA : ver = none → name ≠ lastSeg →
      splitFirst isSep name = none ∧ ∃ c r, name = c :: r ∧ isAlphaC c = true)
    (hB : ∀ v, ver = some v → name ≠ lastSeg → ∀ x ∈ name, isSep x = false)
    (hkind :
      (kind = none ∧ ∀ x ∈ uu.scheme, isPlus x = false) ∨
      (∃ g, kind = some (.git g) ∧ grefOk g) ∨
      kind = some .registry ∨
      (∃ rest0, kind = some .sparseRegistry ∧ uu.scheme = str "sparse" ++ '+' :: rest0) ∨
      (kind = some .path ∧ uu.scheme = str "file")) :
    ∀ fs, parse fs (protoStr kind ++ uu.toString ++ optPart '?' (rtQuery kind)
        ++ optPart '#' (rtFrag name ver lastSeg)) = .ok ⟨name, ver, some uu, kind⟩ := by
  intro fs
  have hAK := afterKind_rt kind hs hl hf hA hB
  have hWv : Url.valid { uu with frag := rtFrag name ver lastSeg } = true := by
    rw [valid_setFrag]
    exact hval
  obtain ⟨hv1, hv2, hv3, hv4, hv5⟩ := valid_parts hval
  have hlne := (hv3 l hs).1
  have hsegsOk := (hv3 l hs).2
  have hschF := validScheme_chars hv1
  obtain ⟨sa, sb, sc, sd, se⟩ := uu
  simp only at hq hf hs hv1 hv2 hschF hkind hAK hWv hval
  subst hq
  subst hf
  rcases hkind with ⟨hkn, hplus⟩ | ⟨g, hkg, hgOk⟩ | hkr | ⟨rest0, hks, hsch⟩ | ⟨hkp, hsch⟩
  · subst hkn
    have hr : protoStr none ++ Url.toString ⟨sa, sb, sc, none, none⟩
        ++ optPart '?' (rtQuery none) ++ optPart '#' (rtFrag name ver lastSeg)
        = Url.toString ⟨sa, sb, sc, none, rtFrag name ver lastSeg⟩ := by
      simp [Url.toString, protoStr, rtQuery, optPart, List.append_assoc]
    rw [hr]
    simp only [parse, hasSub_toString]
    rw [if_pos trivial]
    simp only [url_parse_toString hWv]
    simp only [fromUrl, splitFirst_eq_none hplus, Option.isSome_none,
      Bool.false_eq_true, if_false]
    exact hAK
  · subst hkg
    have hr : protoStr (some (.git g)) ++ Url.toString ⟨sa, sb, sc, none, none⟩
        ++ optPart '?' (rtQuery (some (.git g))) ++ optPart '#' (rtFrag name ver lastSeg)
        = Url.toString ⟨str "git" ++ '+' :: sa, sb, sc, g.prettyRef,
            rtFrag name ver lastSeg⟩ := by
      simp [Url.toString, protoStr, SourceKind.protocol, rtQuery, optPart,
        List.append_assoc]
    rw [hr]
    have hUv : Url.valid ⟨str "git" ++ '+' :: sa, sb, sc, g.prettyRef,
        rtFrag name ver lastSeg⟩ = true := by
      apply valid_of_parts
      · exact validScheme_prefixed (by decide) hschF
      · simp only [isSpecial_plus_git]
        exact validAuth_weaken hv2
      · rw [show (⟨str "git" ++ '+' :: sa, sb, sc, g.prettyRef,
            rtFrag name ver lastSeg⟩ : Url).segs = sc from rfl, hs]
        exact segsOk_some_of hlne hsegsOk _
      · exact prettyRef_queryOk hgOk
    have hsp : splitFirst isPlus (str "git" ++ '+' :: sa) = some (str "git", sa) :=
      splitFirst_append (by decide) (by decide)
    have hst : stripUrlProtocol ⟨str "git" ++ '+' :: sa, sb, sc, none,
        rtFrag name ver lastSeg⟩ = some ⟨sa, sb, sc, none, rtFrag name ver lastSeg⟩ := by
      have h0 := @strip_rt ⟨sa, sb, sc, none, none⟩ (str "git")
        (rtFrag name ver lastSeg) hval rfl (by decide)
      simpa using h0
    simp only [parse, hasSub_toString]
    rw [if_pos trivial]
    simp only [url_parse_toString hUv]
    simp only [fromUrl, hsp]
    rw [if_pos trivial]
    simp only [gref_rt hgOk, hst]
    exact hAK
  · subst hkr
    have hr : protoStr (some .registry) ++ Url.toString ⟨sa, sb, sc, none, none⟩
        ++ optPart '?' (rtQuery (some .registry)) ++ optPart '#' (rtFrag name ver lastSeg)
        = Url.toString ⟨str "registry" ++ '+' :: sa, sb, sc, none,
            rtFrag name ver lastSeg⟩ := by
      simp [Url.toString, protoStr, SourceKind.protocol, rtQuery, optPart,
        List.append_assoc]
    rw [hr]
    have hUv : Url.valid ⟨str "registry" ++ '+' :: sa, sb, sc, none,
        rtFrag name ver lastSeg⟩ = true := by
      apply valid_of_parts
      · exact validScheme_prefixed (by decide) hschF
      · simp only [isSpecial_plus_registry]
        exact validAuth_weaken hv2
      · rw [show (⟨str "registry" ++ '+' :: sa, sb, sc, none,
            rtFrag name ver lastSeg⟩ : Url).segs = sc from rfl, hs]
        exact segsOk_some_of hlne hsegsOk _
      · rfl
    have hsp : splitFirst isPlus (str "registry" ++ '+' :: sa)
        = some (str "registry", sa) :=
      splitFirst_append (by decide) (by decide)
    have hst : stripUrlProtocol ⟨str "registry" ++ '+' :: sa, sb, sc, none,
        rtFrag name ver lastSeg⟩ = some ⟨sa, sb, sc, none, rtFrag name ver lastSeg⟩ := by
      have h0 := @strip_rt ⟨sa, sb, sc, none, none⟩ (str "registry")
        (rtFrag name ver lastSeg) hval rfl (by decide)
      simpa using h0
    simp only [parse, hasSub_toString]
    rw [if_pos trivial]
    simp only [url_parse_toString hUv]
    simp only [fromUrl, hsp]
    rw [if_pos trivial]
    simp only [Option.isSome_none, Bool.false_eq_true, if_false, hst]
    exact hAK
  · subst hks
    have hr : protoStr (some .sparseRegistry) ++ Url.toString ⟨sa, sb, sc, none, none⟩
        ++ optPart '?' (rtQuery (some .sparseRegistry))
        ++ optPart '#' (rtFrag name ver lastSeg)
        = Url.toString ⟨sa, sb, sc, none, rtFrag name ver lastSeg⟩ := by
      simp [Url.toString, protoStr, SourceKind.protocol, rtQuery, optPart,
        List.append_assoc]
    rw [hr]
    have hsp : splitFirst isPlus sa = some (str "sparse", rest0) := by
      rw [hsch]
      exact splitFirst_append (by decide) (by decide)
    simp only [parse, hasSub_toString]
    rw [if_pos trivial]
    simp only [url_parse_toString hWv]
    simp only [fromUrl, hsp]
    rw [if_pos trivial]
    simp only [Option.isSome_none, Bool.false_eq_true, if_false]
    exact hAK
  · subst hkp
    have hr : protoStr (some .path) ++ Url.toString ⟨sa, sb, sc, none, none⟩
        ++ optPart '?' (rtQuery (some .path)) ++ optPart '#' (rtFrag name ver lastSeg)
        = Url.toString ⟨str "path" ++ '+' :: sa, sb, sc, none,
            rtFrag name ver lastSeg⟩ := by
      simp [Url.toString, protoStr, SourceKind.protocol, rtQuery, optPart,
        List.append_assoc]
    rw [hr]
    have hUv : Url.valid ⟨str "path" ++ '+' :: sa, sb, sc, none,
        rtFrag name ver lastSeg⟩ = true := by
      apply valid_of_parts
      · exact validScheme_prefixed (by decide) hschF
      · simp only [isSpecial_plus_path]
        exact validAuth_weaken hv2
      · rw [show (⟨str "path" ++ '+' :: sa, sb, sc, none,
            rtFrag name ver lastSeg⟩ : Url).segs = sc from rfl, hs]
        exact segsOk_some_of hlne hsegsOk _
      · rfl
    have hsp : splitFirst isPlus (str "path" ++ '+' :: sa) = some (str "path", sa) :=
      splitFirst_append (by decide) (by decide)
    have hst : stripUrlProtocol ⟨str "path" ++ '+' :: sa, sb, sc, none,
        rtFrag name ver lastSeg⟩ = some ⟨sa, sb, sc, none, rtFrag name ver lastSeg⟩ := by
      have h0 := @strip_rt ⟨sa, sb, sc, none, none⟩ (str "path")
        (rtFrag name ver lastSeg) hval rfl (by decide)
      simpa using h0
    simp only [parse, hasSub_toString]
    rw [if_pos trivial]
    simp only [url_parse_toString hUv]
    subst hsch
    simp only [fromUrl, hsp]
    simp +decide only [Option.isSome_none, Bool.false_eq_true, if_false, if_true,
      ne_eq, not_true, not_false_iff]
    simp only [hst]
    exact hAK

/-! ### The plain-token path and the full round trip -/

theorem plainParse_inv {s : Str} {loc : PackageIdSpec} (h : plainParse s = .ok loc) :
    loc.url = none ∧ loc.kind = none ∧ validatePackageName loc.name = true ∧
      ∀ x ∈ loc.name, isSep x = false := by
  simp only [plainParse] at h
  cases hsp : splitFirst isSep s with
  | none =>
    simp only [hsp] at h
    by_cases hv : validatePackageName s = true
    · rw [if_pos hv] at h
      injection h with h2
      subst h2
      exact ⟨rfl, rfl, hv, splitFirst_none_inv hsp⟩
    · rw [if_neg hv] at h
      simp at h
  | some pr =>
    obtain ⟨n, r⟩ := pr
    simp only [hsp] at h
    cases hpv : PartialVersion.parse r with
    | none => simp [hpv] at h
    | some v =>
      simp only [hpv] at h
      by_cases hv : validatePackageName n = true
      · rw [if_pos hv] at h
        injection h with h2
        subst h2
        exact ⟨rfl, rfl, hv, (splitFirst_inv hsp).1⟩
      · rw [if_neg hv] at h
        simp at h

theorem parse_ok_cases {fs : Str → Bool} {s : Str} {loc : PackageIdSpec}
    (h : parse fs s = .ok loc) :
    plainParse s = .ok loc ∨ ∃ u, Url.parse s = some u ∧ fromUrl u = .ok loc := by
  simp only [parse] at h
  by_cases hsub : hasSub (str "://") s = true
  · rw [if_pos hsub] at h
    cases hup : Url.parse s with
    | none =>
      rw [hup] at h
      exact Or.inl h
    | some u =>
      rw [hup] at h
      exact Or.inr ⟨u, rfl, h⟩
  · rw [if_neg hsub] at h
    by_cases hcf : ((hasChar '/' s || hasChar '\\' s) && fs s) = true
    · rw [if_pos hcf] at h
      simp at h
    · rw [if_neg hcf] at h
      exact Or.inl h

theorem hasSub_colon_mem {s : Str} (h : hasSub (str "://") s = true) : ':' ∈ s := by
  obtain ⟨a, b, hab⟩ := hasSub_inv h
  rw [hab]
  have he : str "://" = ':' :: '/' :: '/' :: [] := rfl
  rw [he]
  simp

theorem parse_plain_reduce {s : Str}
    (h : ∀ c ∈ s, c ≠ ':' ∧ c ≠ '/' ∧ c ≠ '\\') (fs : Str → Bool) :
    parse fs s = plainParse s := by
  have hsub : hasSub (str "://") s = false := by
    cases hb : hasSub (str "://") s with
    | false => rfl
    | true => exact absurd (hasSub_colon_mem hb) fun hm => (h ':' hm).1 rfl
  have hsl : hasChar '/' s = false := by
    cases hb : hasChar '/' s with
    | false => rfl
    | true => exact absurd (hasChar_iff.mp hb) fun hm => (h '/' hm).2.1 rfl
  have hbs : hasChar '\\' s = false := by
    cases hb : hasChar '\\' s with
    | false => rfl
    | true => exact absurd (hasChar_iff.mp hb) fun hm => (h '\\' hm).2.2 rfl
  simp only [parse, hsub, Bool.false_eq_true, if_false, hsl, hbs, Bool.or_self,
    Bool.false_and]

theorem plain_rt {name : Str} {ver : Option PartialVersion}
    (hn : validatePackageName name = true)
    (hsep : ∀ x ∈ name, isSep x = false) (fs : Str → Bool) :
    parse fs (name ++ (match ver with | some v => '@' :: v.toStr | none => []))
      = .ok ⟨name, ver, none, none⟩ := by
  have hnch : ∀ c ∈ name, c ≠ ':' ∧ c ≠ '/' ∧ c ≠ '\\' := by
    intro c hm
    have h2 := nameContOk_sep (validName_chars hn c hm)
    exact ⟨h2.1, h2.2.2.1, h2.2.2.2⟩
  cases ver with
  | none =>
    show parse fs (name ++ []) = POut.ok ⟨name, none, none, none⟩
    rw [List.append_nil, parse_plain_reduce hnch fs]
    simp [plainParse, splitFirst_eq_none hsep, hn]
  | some v =>
    show parse fs (name ++ '@' :: v.toStr) = POut.ok ⟨name, some v, none, none⟩
    have hch : ∀ c ∈ name ++ '@' :: v.toStr, c ≠ ':' ∧ c ≠ '/' ∧ c ≠ '\\' := by
      intro c hc
      rcases List.mem_append.mp hc with hm | hm
      · exact hnch c hm
      · rcases List.mem_cons.mp hm with rfl | hm2
        · refine ⟨by decide, by decide, by decide⟩
        · rcases pv_toStr_chars c hm2 with hd | rfl
          · have h3 := isDigitC_sep hd
            exact ⟨h3.1, h3.2.2.1, h3.2.2.2.1⟩
          · refine ⟨by decide, by decide, by decide⟩
    rw [parse_plain_reduce hch fs]
    have hsp : splitFirst isSep (name ++ '@' :: v.toStr) = some (name, v.toStr) :=
      splitFirst_append hsep (by decide)
    simp [plainParse, hsp, pv_parse_toStr, hn]

theorem afterKind_setKind (u : Url) (k k2 : Option SourceKind) :
    afterKind u k = (afterKind u k2).mapOk (fun loc => { loc with kind := k }) := by
  obtain ⟨sa, sb, sc, sd, se⟩ := u
  simp only [afterKind]
  cases sc with
  | none => rfl
  | some l =>
    cases hl : l.getLast? with
    | none => simp [hl, POut.mapOk]
    | some p =>
      simp only [hl]
      cases se with
      | none => simp [POut.mapOk]
      | some f =>
        cases hsp : splitFirst isSep f with
        | some pr =>
          obtain ⟨nm, r⟩ := pr
          simp only [hsp]
          cases hpv : PartialVersion.parse r <;> simp [hpv, POut.mapOk]
        | none =>
          simp only [hsp]
          cases f with
          | nil => simp [POut.mapOk]
          | cons c rest2 =>
            simp only [List.head?_cons]
            by_cases hal : isAlphaC c = true
            · simp [hal, POut.mapOk]
            · rw [if_neg hal, if_neg hal]
              cases hpv : PartialVersion.parse (c :: rest2) <;> simp [hpv, POut.mapOk]

theorem fromUrl_full_rt {u0 : Url} {loc : PackageIdSpec}
    (hval : u0.valid = true) (h : fromUrl u0 = .ok loc) :
    ∃ r, render loc = some r ∧ ∀ fs, parse fs r = .ok loc := by
  obtain ⟨u2, kind, hak, hq2, hf2, hv2, hkloc, hbr⟩ := fromUrl_inv hval h
  obtain ⟨l, lastSeg, hs2, hl, hurl, hkind2, hname⟩ := afterKind_inv hak
  have huuv : Url.valid { u2 with frag := none } = true := by
    rw [valid_setFrag]
    exact hv2
  have huq : ({ u2 with frag := none } : Url).query = none := by
    rw [query_updFrag]
    exact hq2
  have hus : ({ u2 with frag := none } : Url).segs = some l := by
    rw [segs_updFrag]
    exact hs2
  have hA : loc.version = none → loc.name ≠ lastSeg →
      splitFirst isSep loc.name = none ∧
        ∃ c r, loc.name = c :: r ∧ isAlphaC c = true := by
    rcases hname with ⟨hf0, hnm, hver⟩ | ⟨f, hf0, hcase⟩
    · intro _ hne
      exact absurd hnm hne
    · rcases hcase with ⟨r, v, hsp, hpv, hver⟩ | ⟨hsp, ⟨c, rest, hfc, hal⟩, hnm, hver⟩ |
        ⟨hsp, hcc, hnm, v, hpv, hver⟩
      · intro hvn _
        rw [hver] at hvn
        exact absurd hvn (by simp)
      · intro _ _
        rw [hnm]
        exact ⟨hsp, c, rest, hfc, hal⟩
      · intro _ hne
        exact absurd hnm hne
  have hB : ∀ v, loc.version = some v → loc.name ≠ lastSeg →
      ∀ x ∈ loc.name, isSep x = false := by
    rcases hname with ⟨hf0, hnm, hver⟩ | ⟨f, hf0, hcase⟩
    · intro v hv hne
      exact absurd hnm hne
    · rcases hcase with ⟨r, v, hsp, hpv, hver⟩ | ⟨hsp, hcc, hnm, hver⟩ |
          ⟨hsp, hcc, hnm, v2, hpv, hver⟩
      · intro _ _ _
        exact (splitFirst_inv hsp).1
      · intro v hv _
        rw [hver] at hv
        exact absurd hv (by simp)
      · intro v hv hne
        exact absurd hnm hne
  have hK : (kind = none ∧ ∀ x ∈ ({ u2 with frag := none } : Url).scheme,
        isPlus x = false) ∨
      (∃ g, kind = some (.git g) ∧ grefOk g) ∨
      kind = some .registry ∨
      (∃ rest0, kind = some .sparseRegistry ∧
        ({ u2 with frag := none } : Url).scheme = str "sparse" ++ '+' :: rest0) ∨
      (kind = some .path ∧ ({ u2 with frag := none } : Url).scheme = str "file") := by
    rcases hbr with ⟨hspl, hkn, hu2, hq0⟩ | ⟨rest, hspl, hkg, hstr, hsch⟩ |
        ⟨rest, hspl, hkr, hq0, hstr, hsch⟩ | ⟨rest, hspl, hks, hq0, hu2⟩ |
        ⟨rest, hspl, hrf, hkp, hq0, hstr, hsch⟩
    · left
      refine ⟨hkn, ?_⟩
      rw [scheme_updFrag, hu2]
      exact splitFirst_none_inv hspl
    · right; left
      exact ⟨_, hkg, gref_fromQuery_ok (valid_parts hval).2.2.2.2⟩
    · right; right; left
      exact hkr
    · right; right; right; left
      obtain ⟨hfree, c, hc, hsch0⟩ := splitFirst_inv hspl
      have hc2 : c = '+' := by
        simpa [isPlus] using hc
      refine ⟨rest, hks, ?_⟩
      rw [scheme_updFrag, hu2, hsch0, hc2]
    · right; right; right; right
      refine ⟨hkp, ?_⟩
      rw [scheme_updFrag, hsch]
  have heta : loc = ⟨loc.name, loc.version, some { u2 with frag := none }, kind⟩ := by
    obtain ⟨n, v, ul, k⟩ := loc
    simp only at hurl hkind2 ⊢
    rw [hurl, hkind2]
  have hpar := fromUrl_rt huuv huq rfl hus hl hA hB hK
  have hrend := @render_rt { u2 with frag := none } l lastSeg loc.name
    loc.version kind hus hl
  refine ⟨protoStr kind ++ ({ u2 with frag := none } : Url).toString
      ++ optPart '?' (rtQuery kind)
      ++ optPart '#' (rtFrag loc.name loc.version lastSeg), ?_, ?_⟩
  · rw [heta]
    exact hrend
  · intro fs
    rw [heta]
    exact hpar fs

/-! ### The claims -/

/-- C1: for every input token accepted by `parse`, rendering the resulting
locator with the `Display` logic and re-running the full parse on that string
yields a locator structurally equal to the first parse's result, whatever
filesystem the second run sees. -/
theorem C1_round_trip (fs fs2 : Str → Bool) (s : Str) (loc : PackageIdSpec)
    (h : parse fs s = .ok loc) :
    ∃ r, render loc = some r ∧ parse fs2 r = .ok loc := by
  rcases parse_ok_cases h with hp | ⟨u, hup, hfu⟩
  · obtain ⟨hu, hk, hn, hsep⟩ := plainParse_inv hp
    obtain ⟨n, v, ul, k⟩ := loc
    simp only at hu hk hn hsep
    subst hu
    subst hk
    cases v with
    | none => exact ⟨n ++ [], rfl, @plain_rt n none hn hsep fs2⟩
    | some v2 => exact ⟨n ++ '@' :: v2.toStr, rfl, @plain_rt n (some v2) hn hsep fs2⟩
  · obtain ⟨r, hr, hall⟩ := fromUrl_full_rt (url_parse_sound hup).1 hfu
    exact ⟨r, hr, hall fs2⟩

theorem C1_round_trip_witness :
    ∃ r, render ⟨str "bar", some (.three 1 2 3), none, none⟩ = some r ∧
      parse (fun _ => false) r = .ok ⟨str "bar", some (.three 1 2 3), none, none⟩ :=
  C1_round_trip (fun _ => false) (fun _ => false) (str "bar@1.2.3") _ (by decide)

/-- C2: in the fragment phase, a fragment without ':' or '@' is judged by its
first character — alphabetic means the whole fragment is the name with no
version, otherwise the whole fragment must parse as a partial version and the
name falls back to the last path segment; a fragment with a separator is
split once, left side name, right side version. -/
theorem C2_fragment_heuristic (u : Url) (kind : Option SourceKind) (l : List Str)
    (lastSeg f : Str) (hs : u.segs = some l) (hl : l.getLast? = some lastSeg)
    (hf : u.frag = some f) :
    (∀ nm rest2, splitFirst isSep f = some (nm, rest2) →
      afterKind u kind = match PartialVersion.parse rest2 with
        | some v => .ok ⟨nm, some v, some { u with frag := none }, kind⟩
        | none => .err .versionGrammar) ∧
    (∀ c rest2, splitFirst isSep f = none → f = c :: rest2 →
      (isAlphaC c = true →
        afterKind u kind = .ok ⟨f, none, some { u with frag := none }, kind⟩) ∧
      (isAlphaC c = false →
        afterKind u kind = match PartialVersion.parse f with
          | some v => .ok ⟨lastSeg, some v, some { u with frag := none }, kind⟩
          | none => .err .versionGrammar)) := by
  obtain ⟨sch, auth, segs0, q0, f0⟩ := u
  simp only at hs hf
  subst hs
  subst hf
  constructor
  · intro nm rest2 hsp
    simp only [afterKind, hl, hsp]
  · intro c rest2 hsp hfc
    subst hfc
    constructor
    · intro hal
      simp [afterKind, hl, hsp, hal]
    · intro hal
      simp only [afterKind, hl, hsp, List.head?_cons]
      rw [if_neg (by simp [hal])]

theorem C2_fragment_heuristic_witness :
    afterKind ⟨str "https", str "h", some [str "p"], none, some (str "x@1.2")⟩ none
      = (match PartialVersion.parse (str "1.2") with
        | some v => POut.ok ⟨str "x", some v,
            some ⟨str "https", str "h", some [str "p"], none, none⟩, none⟩
        | none => POut.err .versionGrammar) :=
  (C2_fragment_heuristic ⟨str "https", str "h", some [str "p"], none,
      some (str "x@1.2")⟩ none [str "p"] (str "p") (str "x@1.2") rfl rfl rfl).1
    (str "x") (str "1.2") (by decide)

/-- C3: a query string is fatal for the registry, sparse and path kinds and
for kindless URLs, while for the git kind the query never decides success —
it is folded into the git reference and cleared from the URL that the rest of
the parse sees. -/
theorem C3_kind_query_policy (u : Url) :
    (∀ q, u.query = some q →
      (splitFirst isPlus u.scheme = none ∨
       (∃ rest, splitFirst isPlus u.scheme = some (str "registry", rest)) ∨
       (∃ rest, splitFirst isPlus u.scheme = some (str "sparse", rest)) ∨
       (∃ rest, splitFirst isPlus u.scheme = some (str "path", rest))) →
      ∃ e, fromUrl u = .err e) ∧
    (∀ rest, splitFirst isPlus u.scheme = some (str "git", rest) →
      fromUrl u = (fromUrl { u with query := none }).mapOk
        (fun loc =>
          { loc with
              kind := some (.git (GitReference.fromQuery (queryPairs u.query))) }))
    := by
  obtain ⟨sa, sb, sc, sd, se⟩ := u
  constructor
  · intro q hq hd
    simp only at hq
    subst hq
    rcases hd with hsp | ⟨rest, hsp⟩ | ⟨rest, hsp⟩ | ⟨rest, hsp⟩
    · exact ⟨.queryString (Url.toString ⟨sa, sb, sc, some q, se⟩),
        by simp +decide [fromUrl, hsp]⟩
    · exact ⟨.queryString (Url.toString ⟨sa, sb, sc, some q, se⟩),
        by simp +decide [fromUrl, hsp]⟩
    · exact ⟨.queryString (Url.toString ⟨sa, sb, sc, some q, se⟩),
        by simp +decide [fromUrl, hsp]⟩
    · exact ⟨.queryString (Url.toString ⟨sa, sb, sc, some q, se⟩),
        by simp +decide [fromUrl, hsp]⟩
  · intro rest hsp
    simp only at hsp
    simp only [fromUrl, hsp]
    simp only [if_true]
    cases hst : stripUrlProtocol ⟨sa, sb, sc, none, se⟩ with
    | none => simp [hst, POut.mapOk]
    | some u2 =>
      simp only [hst]
      exact afterKind_setKind u2 _ _

theorem C3_kind_query_policy_witness :
    ∃ e, fromUrl ⟨str "registry" ++ '+' :: str "https", str "h", some [str "p"],
      some (str "q=1"), none⟩ = .err e :=
  (C3_kind_query_policy ⟨str "registry" ++ '+' :: str "https", str "h",
      some [str "p"], some (str "q=1"), none⟩).1 (str "q=1") rfl
    (Or.inr (Or.inl ⟨str "https", by decide⟩))

/-- C4: the spec asks that an empty fragment behave like no fragment at all
and that the parse never abort; the code instead unwraps the first character
of the fragment, so the model's outcome for a trailing bare '#' is the panic
marker, while dropping the '#' parses fine. -/
theorem C4_empty_fragment_panics :
    parse (fun _ => false) (str "https://crates.io/foo#") = .panic ∧
    parse (fun _ => false) (str "https://crates.io/foo")
      = .ok ⟨str "foo", none,
          some ⟨str "https", str "crates.io", some [str "foo"], none, none⟩, none⟩ := by
  constructor
  · decide
  · decide

/-- C5 (amended): a token starting with ':' or '@' is routed to the plain
path, where the empty name is accepted by the validator; the outcome is
decided by the version grammar alone, not by name validation. -/
theorem C5_empty_name_accepted (c : Char) (r : Str) (hc : isSep c = true)
    (hnu : hasSub (str "://") (c :: r) = false) :
    parse (fun _ => false) (c :: r)
      = match PartialVersion.parse r with
        | some v => .ok ⟨[], some v, none, none⟩
        | none => .err .versionGrammar := by
  simp only [parse, hnu, Bool.false_eq_true, if_false, Bool.and_false]
  simp only [plainParse, splitFirst, hc, if_true]
  cases hpv : PartialVersion.parse r <;> simp [hpv, validatePackageName]

theorem C5_empty_name_accepted_witness :
    parse (fun _ => false) ('@' :: str "1.2.3")
      = (match PartialVersion.parse (str "1.2.3") with
        | some v => POut.ok ⟨[], some v, none, none⟩
        | none => POut.err .versionGrammar) :=
  C5_empty_name_accepted '@' (str "1.2.3") (by decide) (by decide)

theorem C5_empty_name_counterexample :
    parse (fun _ => false) (str "@1.2.3")
      = .ok ⟨[], some (.three 1 2 3), none, none⟩ := by decide

/-- C6 (amended): parse is deterministic in the token together with the
filesystem's answer for that token; the filesystem is never consulted for a
URL-shaped token or for a token free of path separators. -/
theorem C6_fs_dependence (fs1 fs2 : Str → Bool) (s : Str) :
    (fs1 s = fs2 s → parse fs1 s = parse fs2 s) ∧
    (hasSub (str "://") s = true → parse fs1 s = parse fs2 s) ∧
    (hasChar '/' s = false → hasChar '\\' s = false → parse fs1 s = parse fs2 s) := by
  refine ⟨?_, ?_, ?_⟩
  · intro h
    simp only [parse, h]
  · intro h
    simp [parse, h]
  · intro h1 h2
    simp [parse, h1, h2]

theorem C6_fs_dependence_witness :
    parse (fun _ => true) (str "alpha") = parse (fun _ => false) (str "alpha") :=
  (C6_fs_dependence (fun _ => true) (fun _ => false) (str "alpha")).2.2
    (by decide) (by decide)

theorem C6_fs_dependence_counterexample :
    parse (fun _ => true) (str "foo/bar") ≠ parse (fun _ => false) (str "foo/bar") := by
  decide

/-- C7: for a compound kind+transport scheme, the stored URL keeps only the
transport for the git, registry and path kinds, while the sparse kind keeps
its whole scheme verbatim; and the renderer adds no protocol prefix of its
own for sparse, so the rendered string starts with the stored URL itself. -/
theorem C7_prefix_policy (u : Url) (loc : PackageIdSpec) (kindStr rest : Str)
    (hval : u.valid = true) (h : fromUrl u = .ok loc)
    (hsp : splitFirst isPlus u.scheme = some (kindStr, rest)) :
    ∃ uu, loc.url = some uu ∧
      ((kindStr = str "git" ∨ kindStr = str "registry" ∨ kindStr = str "path") →
        uu.scheme = rest) ∧
      (kindStr = str "sparse" →
        uu.scheme = u.scheme ∧
        ∃ lastSeg, render loc
          = some (uu.toString ++ optPart '#' (rtFrag loc.name loc.version lastSeg))) := by
  obtain ⟨u2, kind, hak, hq2, hf2, hv2, hkloc, hbr⟩ := fromUrl_inv hval h
  obtain ⟨l, lastSeg, hs2, hl, hurl, hkind2, hname⟩ := afterKind_inv hak
  refine ⟨{ u2 with frag := none }, hurl, ?_, ?_⟩
  · intro hks
    rcases hbr with ⟨hspl, hkn, hu2, hq0⟩ | ⟨rest1, hspl, hkg, hstr, hsch⟩ |
        ⟨rest1, hspl, hkr, hq0, hstr, hsch⟩ | ⟨rest1, hspl, hks2, hq0, hu2⟩ |
        ⟨rest1, hspl, hrf, hkp, hq0, hstr, hsch⟩
    · rw [hspl] at hsp
      simp at hsp
    · rw [hspl] at hsp
      simp only [Option.some.injEq, Prod.mk.injEq] at hsp
      rw [scheme_updFrag, hsch, hsp.2]
    · rw [hspl] at hsp
      simp only [Option.some.injEq, Prod.mk.injEq] at hsp
      rw [scheme_updFrag, hsch, hsp.2]
    · rw [hspl] at hsp
      simp only [Option.some.injEq, Prod.mk.injEq] at hsp
      rcases hks with hk | hk | hk <;>
        (rw [← hsp.1] at hk; exact absurd hk (by decide))
    · rw [hspl] at hsp
      simp only [Option.some.injEq, Prod.mk.injEq] at hsp
      rw [scheme_updFrag, hsch, ← hsp.2, hrf]
  · intro hks
    rcases hbr with ⟨hspl, hkn, hu2, hq0⟩ | ⟨rest1, hspl, hkg, hstr, hsch⟩ |
        ⟨rest1, hspl, hkr, hq0, hstr, hsch⟩ | ⟨rest1, hspl, hks2, hq0, hu2⟩ |
        ⟨rest1, hspl, hrf, hkp, hq0, hstr, hsch⟩
    · rw [hspl] at hsp
      simp at hsp
    · rw [hspl] at hsp
      simp only [Option.some.injEq, Prod.mk.injEq] at hsp
      rw [← hsp.1] at hks
      exact absurd hks (by decide)
    · rw [hspl] at hsp
      simp only [Option.some.injEq, Prod.mk.injEq] at hsp
      rw [← hsp.1] at hks
      exact absurd hks (by decide)
    · constructor
      · rw [scheme_updFrag, hu2]
      · refine ⟨lastSeg, ?_⟩
        have hus : ({ u2 with frag := none } : Url).segs = some l := by
          rw [segs_updFrag]
          exact hs2
        have heta : loc = ⟨loc.name, loc.version, some { u2 with frag := none },
            kind⟩ := by
          obtain ⟨n, v, ul, k⟩ := loc
          simp only at hurl hkind2 ⊢
          rw [hurl, hkind2]
        rw [heta]
        rw [render_rt hus hl]
        rw [hks2]
        simp [protoStr, SourceKind.protocol, rtQuery, optPart]
    · rw [hspl] at hsp
      simp only [Option.some.injEq, Prod.mk.injEq] at hsp
      rw [← hsp.1] at hks
      exact absurd hks (by decide)

theorem C7_prefix_policy_witness :
    ∃ uu, (PackageIdSpec.mk (str "p") none
        (some ⟨str "sparse" ++ '+' :: str "https", str "h", some [str "p"], none, none⟩)
        (some .sparseRegistry)).url = some uu ∧
      ((str "sparse" = str "git" ∨ str "sparse" = str "registry" ∨
          str "sparse" = str "path") →
        uu.scheme = str "https") ∧
      (str "sparse" = str "sparse" →
        uu.scheme = str "sparse" ++ '+' :: str "https" ∧
        ∃ lastSeg, render (PackageIdSpec.mk (str "p") none
            (some ⟨str "sparse" ++ '+' :: str "https", str "h", some [str "p"],
              none, none⟩) (some .sparseRegistry))
          = some (uu.toString ++ optPart '#' (rtFrag (str "p") none lastSeg))) :=
  C7_prefix_policy ⟨str "sparse" ++ '+' :: str "https", str "h", some [str "p"],
      none, none⟩
    (PackageIdSpec.mk (str "p") none
      (some ⟨str "sparse" ++ '+' :: str "https", str "h", some [str "p"], none, none⟩)
      (some .sparseRegistry))
    (str "sparse") (str "https") (by decide) (by decide) (by decide)

/-- C8 (amended): under a 'path' kind the transport check runs only after the
query check, rejecting a non-file transport with the unsupported-path-scheme
error; an unrecognised kind token is rejected with an error naming it. -/
theorem C8_unsupported_errors (u : Url) (kindStr rest : Str)
    (hsp : splitFirst isPlus u.scheme = some (kindStr, rest)) :
    (kindStr = str "path" → u.query = none → rest ≠ str "file" →
      fromUrl u = .err (.unsupportedPathScheme rest)) ∧
    (kindStr ≠ str "git" → kindStr ≠ str "registry" → kindStr ≠ str "sparse" →
      kindStr ≠ str "path" → fromUrl u = .err (.unsupportedProtocol kindStr)) := by
  constructor
  · rintro rfl hq hrf
    simp only [fromUrl, hsp]
    simp +decide only [if_true, if_false]
    rw [hq]
    simp only [Option.isSome_none, Bool.false_eq_true, if_false]
    rw [if_pos hrf]
  · intro h1 h2 h3 h4
    simp only [fromUrl, hsp]
    rw [if_neg h1, if_neg h2, if_neg h3, if_neg h4]

theorem C8_unsupported_errors_witness :
    fromUrl ⟨str "foobar" ++ '+' :: str "https", str "h", some [str "p"], none, none⟩
      = .err (.unsupportedProtocol (str "foobar")) :=
  (C8_unsupported_errors ⟨str "foobar" ++ '+' :: str "https", str "h",
      some [str "p"], none, none⟩ (str "foobar") (str "https") (by decide)).2
    (by decide) (by decide) (by decide) (by decide)

theorem C8_unsupported_errors_counterexample :
    parse (fun _ => false) (str "path+https://host/index?q=1")
      = .err (.queryString (str "path+https://host/index?q=1")) ∧
    ∀ r, parse (fun _ => false) (str "path+https://host/index?q=1")
      ≠ .err (.unsupportedPathScheme r) := by
  refine ⟨by decide, ?_⟩
  intro r hx
  rw [show parse (fun _ => false) (str "path+https://host/index?q=1")
      = .err (.queryString (str "path+https://host/index?q=1")) from by decide] at hx
  simp at hx

/-- C9 (amended): locators produced by parse or from_package_id satisfy the
kind-implies-url invariant, and the builders new/with_version/with_url and
setter set_url keep or establish it; with_kind and set_kind set the kind
without touching or requiring the URL, so they alone can break it. -/
theorem C9_kind_url_invariant :
    (∀ fs s loc, parse fs s = .ok loc →
      loc.kind.isSome = true → loc.url.isSome = true) ∧
    (∀ p, (PackageIdSpec.fromPackageId p).url.isSome = true) ∧
    (∀ n, (PackageIdSpec.new n).kind = none ∧ (PackageIdSpec.new n).url = none) ∧
    (∀ s v, (PackageIdSpec.withVersion s v).url = s.url ∧
      (PackageIdSpec.withVersion s v).kind = s.kind) ∧
    (∀ s u2, (PackageIdSpec.withUrl s u2).url.isSome = true ∧
      (PackageIdSpec.withUrl s u2).kind = s.kind) ∧
    (∀ s u2, (PackageIdSpec.setUrl s u2).url.isSome = true ∧
      (PackageIdSpec.setUrl s u2).kind = s.kind) ∧
    (∀ s k, (PackageIdSpec.withKind s k).kind = some k ∧
      (PackageIdSpec.withKind s k).url = s.url) ∧
    (∀ s k, (PackageIdSpec.setKind s k).kind = some k ∧
      (PackageIdSpec.setKind s k).url = s.url) := by
  refine ⟨?_, fun p => rfl, fun n => ⟨rfl, rfl⟩, fun s v => ⟨rfl, rfl⟩,
    fun s u2 => ⟨rfl, rfl⟩, fun s u2 => ⟨rfl, rfl⟩, fun s k => ⟨rfl, rfl⟩,
    fun s k => ⟨rfl, rfl⟩⟩
  intro fs s loc h hk
  rcases parse_ok_cases h with hp | ⟨u, hup, hfu⟩
  · rw [(plainParse_inv hp).2.1] at hk
    simp at hk
  · obtain ⟨u2, kind, hak, _, _, _, _, _⟩ :=
      fromUrl_inv (url_parse_sound hup).1 hfu
    obtain ⟨l, lastSeg, _, _, hurl, _, _⟩ := afterKind_inv hak
    rw [hurl]
    rfl

theorem C9_kind_url_invariant_witness :
    (⟨str "p", none, some ⟨str "https", str "h", some [str "p"], none, none⟩,
      some .registry⟩ : PackageIdSpec).url.isSome = true :=
  C9_kind_url_invariant.1 (fun _ => false) (str "registry+https://h/p")
    ⟨str "p", none, some ⟨str "https", str "h", some [str "p"], none, none⟩,
      some .registry⟩ (by decide) (by decide)

theorem C9_kind_url_invariant_counterexample :
    ((PackageIdSpec.new (str "foo")).withKind .registry).kind = some .registry ∧
    ((PackageIdSpec.new (str "foo")).withKind .registry).url = none :=
  ⟨rfl, rfl⟩

/-- C10: a URL-shaped token only parses when the URL keeps at least one path
segment, so the renderer's last-segment extraction always succeeds on
parse-produced locators; a locator built by with_url around a segment-free
URL renders to the panic marker instead. -/
theorem C10_render_totality :
    (∀ fs s loc uu, parse fs s = .ok loc → loc.url = some uu →
      ∃ l lastSeg, uu.segs = some l ∧ l.getLast? = some lastSeg ∧
        ∃ r, render loc = some r) ∧
    render ((PackageIdSpec.new (str "foo")).withUrl
      ⟨str "https", str "h", none, none, none⟩) = none := by
  constructor
  · intro fs s loc uu h hu
    rcases parse_ok_cases h with hp | ⟨u, hup, hfu⟩
    · rw [(plainParse_inv hp).1] at hu
      cases hu
    · obtain ⟨u2, kind, hak, _, _, _, _, _⟩ :=
        fromUrl_inv (url_parse_sound hup).1 hfu
      obtain ⟨l, lastSeg, hs2, hl, hurl, hkind2, _⟩ := afterKind_inv hak
      rw [hurl] at hu
      injection hu with hu2
      subst hu2
      refine ⟨l, lastSeg, by rw [segs_updFrag]; exact hs2, hl, ?_⟩
      have heta : loc = ⟨loc.name, loc.version, some { u2 with frag := none },
          kind⟩ := by
        obtain ⟨n, v, ul, k⟩ := loc
        simp only at hurl hkind2 ⊢
        rw [hurl, hkind2]
      rw [heta, render_rt (by rw [segs_updFrag]; exact hs2) hl]
      exact ⟨_, rfl⟩
  · rfl

theorem C10_render_totality_witness :
    ∃ l lastSeg,
      (⟨str "https", str "h", some [str "p"], none, none⟩ : Url).segs = some l ∧
      l.getLast? = some lastSeg ∧
      ∃ r, render ⟨str "p", none,
        some ⟨str "https", str "h", some [str "p"], none, none⟩, none⟩ = some r :=
  C10_render_totality.1 (fun _ => false) (str "https://h/p")
    ⟨str "p", none, some ⟨str "https", str "h", some [str "p"], none, none⟩, none⟩
    ⟨str "https", str "h", some [str "p"], none, none⟩ (by decide) rfl
